import Mathlib

set_option maxRecDepth 10000

/-!
Shallow embedding of the Dr_AI clinical text analysis and multi-provider
consensus module (the `aiService` module of the repository), together with
proofs about the properties claimed in its specification.

Text is modelled as `List Char`.  The JavaScript string primitives the
module relies on are embedded explicitly:

* `splitWs` is `String.prototype.split(/\s+/)`, including its boundary
  behaviour (an empty input yields one empty token, leading and trailing
  whitespace yield empty tokens).
* `scanCount` is the number of matches of the global regular expression
  `\b<literal>\b` (flags `gi`): a left-to-right scan that, on a match,
  resumes right after it.  Case folding is applied to the subject before
  matching (as the source always matches against `text.toLowerCase()`),
  so the `i` flag needs no separate treatment.
* `isSub` is `String.prototype.includes`.

Numeric results (`keyword_percentage`, sentiment scores) are modelled as
rationals; `toFixed(n)` becomes rounding to `n` decimal places with ties
toward positive infinity, following the ECMAScript definition.  The IEEE
double rounding of the source can only move a value within the bounds the
claims are about, never across them, so the rational model is faithful for
every claim considered here.
-/

namespace DrAI

/-- Character class of the ECMAScript `\s` (whitespace) regex class,
which is also what `split(/\s+/)` splits on (code points written out:
space, tab, line feed, vertical tab, form feed, carriage return, NBSP and
the Unicode space separators). -/
def isWs (c : Char) : Bool :=
  c.toNat = 0x20 || c.toNat = 0x09 || c.toNat = 0x0a || c.toNat = 0x0d ||
  c.toNat = 0x0b || c.toNat = 0x0c ||
  c.toNat = 0xa0 || c.toNat = 0x1680 ||
  (0x2000 ≤ c.toNat && c.toNat ≤ 0x200a) ||
  c.toNat = 0x2028 || c.toNat = 0x2029 || c.toNat = 0x202f ||
  c.toNat = 0x205f || c.toNat = 0x3000 || c.toNat = 0xfeff

/-- Character class of the ECMAScript `\w`, which is what the `\b`
assertion is defined from: ASCII letters, digits and underscore. -/
def isWordChar (c : Char) : Bool :=
  (0x61 ≤ c.toNat && c.toNat ≤ 0x7a) || (0x41 ≤ c.toNat && c.toNat ≤ 0x5a) ||
  (0x30 ≤ c.toNat && c.toNat ≤ 0x39) || c.toNat = 0x5f

/-- ASCII case folding; `String.prototype.toLowerCase` restricted to the
ASCII range, which covers every character the module compares against. -/
def lowerChar (c : Char) : Char :=
  if 'A' ≤ c && c ≤ 'Z' then Char.ofNat (c.toNat + 32) else c

def lowerStr (s : List Char) : List Char := s.map lowerChar

/-- Whether a string starts with a whitespace character. -/
def headWs : List Char → Bool
  | [] => false
  | c :: _ => isWs c

/-- Prepend a character to the first token of a split result. -/
def consHead (c : Char) : List (List Char) → List (List Char)
  | [] => [[c]]
  | t :: ts => (c :: t) :: ts

/-- `String.prototype.split(/\s+/)`: the list of maximal runs of
non-whitespace characters, with an empty token at an end of the string
that touches whitespace, and a single empty token for the empty string.
A whitespace character opens a new (possibly empty) leading token exactly
when it is the first character of its whitespace run. -/
def splitWs : List Char → List (List Char)
  | [] => [[]]
  | c :: cs =>
    if isWs c then
      if headWs cs then splitWs cs else [] :: splitWs cs
    else
      consHead c (splitWs cs)

/-- Word-character status of a position just outside the string or holding
the given character; the ECMAScript `\b` assertion holds where the two
sides disagree. -/
def wordy : Option Char → Bool
  | none => false
  | some c => isWordChar c

/-- The `\b` assertion between two (possibly absent) adjacent characters. -/
def bdry (a b : Option Char) : Bool := wordy a != wordy b

/-- `\b<pat>\b` matches at the very start of `s`, where `prev` is the
character immediately before `s` (`none` at the start of the subject). -/
def matchOK (pat : List Char) (prev : Option Char) (s : List Char) : Bool :=
  !pat.isEmpty && pat.isPrefixOf s &&
  bdry prev pat.head? && bdry pat.getLast? (s.drop pat.length).head?

/-- Number of matches of the global regex `\b<pat>\b` in the suffix `s`
of the subject: the JavaScript `String.prototype.match(re).length` scan
(`0` standing for `null`).  `prev` is the character just before `s`, and
`skip` is the number of characters of an already-counted match still to
be passed over before scanning resumes — the structural-recursion form of
the `lastIndex` jump to the end of a match. -/
def scanCount (pat : List Char) : Nat → Option Char → List Char → Nat
  | _, _, [] => 0
  | Nat.succ k, _, c :: cs => scanCount pat k (some c) cs
  | 0, prev, c :: cs =>
    if matchOK pat prev (c :: cs) then
      1 + scanCount pat (pat.length - 1) (some c) cs
    else
      scanCount pat 0 (some c) cs

/-- Total number of `\b<pat>\b` matches in the subject `s`. -/
def countOccur (pat : List Char) (s : List Char) : Nat :=
  scanCount pat 0 none s

/-- `String.prototype.includes`: `n` occurs as a contiguous substring of
`h` (every string includes the empty string). -/
def isSub (n h : List Char) : Bool :=
  if n.isPrefixOf h then true
  else
    match h with
    | [] => false
    | _ :: t => isSub n t

/-- Shorthand: the character list of a string literal. -/
def cl (s : String) : List Char := s.data

/-- The apostrophe character, U+0027. -/
def apos : Char := Char.ofNat 39

/-- The word `can't` as it appears in several of the source word lists. -/
def cant : List Char := ['c', 'a', 'n', apos, 't']

/-- One symptom category of the `DIAGNOSTIC_KEYWORDS` taxonomy: its name,
its multi-word phrases and its single words. -/
structure Category where
  name : String
  phrases : List (List Char)
  words : List (List Char)
deriving Repr, DecidableEq

/-- The `DIAGNOSTIC_KEYWORDS` table of the source, in its definition
order (the iteration order of `Object.entries` on it). -/
def DIAGNOSTIC_KEYWORDS : List Category :=
  [ { name := "CARDIOVASCULAR"
    , phrases := [cl "chest pain", cl "shortness of breath",
                  cl "short of breath", cl "out of breath"]
    , words := [cl "chest", cl "heart", cl "palpitations", cl "swollen",
                cl "edema", cl "syncope"] }
  , { name := "RESPIRATORY"
    , phrases := [cl "catching my breath", cl "hard to breathe",
                  cl "trouble breathing"]
    , words := [cl "cough", cl "wheezing", cl "breathless", cl "sputum",
                cl "gasping"] }
  , { name := "GASTROINTESTINAL"
    , phrases := [cl "stomach pain", cl "abdominal pain", cl "feel sick"]
    , words := [cl "nausea", cl "vomiting", cl "diarrhea",
                cl "constipation", cl "bloated"] }
  , { name := "NEUROLOGICAL"
    , phrases := [cl "bad headache", cl "head hurts", cl "feel dizzy"]
    , words := [cl "headache", cl "seizure", cl "numbness", cl "tingling",
                cl "confusion"] }
  , { name := "MUSCULOSKELETAL"
    , phrases := [cl "joint pain", cl "muscle pain", cl "back pain",
                  cl "knee pain"]
    , words := [cl "joint", cl "muscle", cl "pain", cl "ache", cl "sore",
                cl "stiff", cl "weak"] }
  , { name := "CONSTITUTIONAL"
    , phrases := [cl "feel tired", cl "no energy", cl "weight loss"]
    , words := [cl "fever", cl "chills", cl "fatigue", cl "exhausted",
                cl "sweats"] }
  , { name := "PSYCHIATRIC"
    , phrases := [cl "feel anxious", cl "feel depressed", cant ++ [' '] ++ cl "sleep"]
    , words := [cl "anxiety", cl "depression", cl "stress", cl "worried",
                cl "mood"] } ]

/-- One entry of the `diagnosticKeywords` object built by
`analyzeKeywords`: a term (phrase or word), its running count and the
category it was tagged with.  The entry list keeps the object key
insertion order. -/
structure KwEntry where
  term : List Char
  count : Nat
  category : String
deriving Repr, DecidableEq

/-- One phrase of the phrase pass: append an entry exactly when the regex
`\b<phrase>\b` matches the lowered text at least once, carrying the match
count and the category name. -/
def phraseStep (lower : List Char) (cname : String) (acc : List KwEntry)
    (ph : List Char) : List KwEntry :=
  let n := countOccur ph lower
  if n > 0 then acc ++ [⟨ph, n, cname⟩] else acc

/-- The phrase pass of `analyzeKeywords`: every phrase of every category,
in taxonomy order.  Phrase keys are pairwise distinct across the taxonomy,
so appending realizes the JavaScript object assignment
`diagnosticKeywords[phrase] = {count, category}` faithfully. -/
def phrasePass (lower : List Char) : List KwEntry :=
  DIAGNOSTIC_KEYWORDS.foldl
    (fun acc cat => cat.phrases.foldl (phraseStep lower cat.name) acc)
    []

/-- `Object.keys(diagnosticKeywords).join(' ')` at the end of the phrase
pass (already lower case). -/
def phrasesFound (lower : List Char) : List Char :=
  List.intercalate [' '] ((phrasePass lower).map (·.term))

/-- The `diagnosticKeywords[word]` creation-and-increment of the word
pass: create the entry with count `0` under `cat` if absent, then
increment its count. -/
def bumpWord (entries : List KwEntry) (w : List Char) (cat : String) :
    List KwEntry :=
  if entries.any (fun e => e.term = w) then
    entries.map (fun e => if e.term = w then { e with count := e.count + 1 } else e)
  else
    entries ++ [⟨w, 1, cat⟩]

/-- One category check of the word pass for a token `w`. -/
def wordTokenStep (w : List Char) (acc : List KwEntry) (cat : Category) :
    List KwEntry :=
  if cat.words.contains w then bumpWord acc w cat.name else acc

/-- Processing of one token in the word pass: every category whose word
list contains it bumps its entry (the source iterates all categories for
each token). -/
def wordPassToken (entries : List KwEntry) (w : List Char) : List KwEntry :=
  DIAGNOSTIC_KEYWORDS.foldl (wordTokenStep w) entries

/-- The full word pass: tokens whose text is a substring of the joined
matched-phrase keys are skipped, the rest are checked against every
category word list. -/
def wordPass (pf : List Char) (tokens : List (List Char))
    (entries : List KwEntry) : List KwEntry :=
  tokens.foldl (fun acc w => if isSub w pf then acc else wordPassToken acc w) entries

/-- Sum of the counts of all entries, the `keywordCount` reduction. -/
def sumCounts (entries : List KwEntry) : Nat :=
  entries.foldl (fun n e => n + e.count) 0

/-- `parseFloat(x.toFixed(1))` on a non-negative value: round to one
decimal place, ties toward the larger value. -/
def round1 (q : ℚ) : ℚ := ((⌊q * 10 + 1 / 2⌋ : ℤ) : ℚ) / 10

/-- `parseFloat(x.toFixed(2))`: round to two decimal places. -/
def round2 (q : ℚ) : ℚ := ((⌊q * 100 + 1 / 2⌋ : ℤ) : ℚ) / 100

/-- The Keyword Analysis Result of `analyzeKeywords`. -/
structure KwResult where
  total_words : Nat
  diagnostic_keywords : List KwEntry
  keyword_percentage : ℚ
  top_keywords : List KwEntry
deriving Repr, DecidableEq

/-- Stable insertion into a list sorted by descending count, keeping
earlier elements first among equal counts. -/
def insertDesc (x : KwEntry) : List KwEntry → List KwEntry
  | [] => [x]
  | y :: ys => if y.count ≥ x.count then y :: insertDesc x ys else x :: y :: ys

/-- The stable `sort((a, b) => b.count - a.count)` of the source. -/
def sortByCountDesc (l : List KwEntry) : List KwEntry :=
  l.foldl (fun acc x => insertDesc x acc) []

/-- `analyzeKeywords` of the source (the current revision): lower the
text, split it on whitespace, run the phrase pass, then the word pass
with the substring-of-matched-phrases skip, and assemble the aggregate
statistics. -/
def analyzeKeywords (text : List Char) : KwResult :=
  let lower := lowerStr text
  let tokens := splitWs lower
  let totalWords := tokens.length
  let pEntries := phrasePass lower
  let pf := phrasesFound lower
  let entries := wordPass pf tokens pEntries
  let kwCount := sumCounts entries
  let pct : ℚ := if totalWords > 0 then round1 (kwCount * 100 / totalWords) else 0
  { total_words := totalWords
  , diagnostic_keywords := entries
  , keyword_percentage := pct
  , top_keywords := (sortByCountDesc entries).take 10 }

/-! ### Sentiment classification -/

/-- The Sentiment Result record.  `confidence` and `model` are only
populated on the primary path, mirroring the source objects. -/
structure SentimentResult where
  overall_sentiment : String
  sentiment_score : ℚ
  distress_level : String
  emotional_indicators : List (List Char)
  confidence : Option ℤ
  analysis_type : String
  model : Option String
deriving Repr, DecidableEq

/-- `negativeWords` of `analyzeSentimentFallback`. -/
def negativeWords : List (List Char) :=
  [cl "pain", cl "hurt", cl "severe", cl "terrible", cl "awful", cant,
   cl "unable", cl "difficult", cl "worse", cl "bad", cl "throbbing"]

/-- `positiveWords` of `analyzeSentimentFallback`. -/
def positiveWords : List (List Char) :=
  [cl "better", cl "improved", cl "good", cl "fine", cl "well", cl "easy",
   cl "comfortable"]

/-- `distressWords` of `analyzeSentimentFallback`. -/
def distressWords : List (List Char) :=
  [cl "severe", cl "extreme", cl "terrible", cl "unbearable", cl "constant",
   cl "always"]

/-- Sum over a word list of the `\b<word>\b` match counts in the lowered
text: the `forEach` accumulation of the fallback path. -/
def countList (ws : List (List Char)) (lower : List Char) : Nat :=
  ws.foldl (fun n w => n + countOccur w lower) 0

/-- The rule-based fallback sentiment path (`analyzeSentimentFallback`).
Its score divides by `max(positive + negative, 1)`, so the division is
always by a positive number. -/
def analyzeSentimentFallback (text : List Char) : SentimentResult :=
  let lower := lowerStr text
  let neg := countList negativeWords lower
  let pos := countList positiveWords lower
  let dis := countList distressWords lower
  let score : ℚ := ((pos : ℤ) - (neg : ℤ)) / (max (pos + neg) 1 : ℕ)
  let overall :=
    if score > 2 / 10 then "positive"
    else if score < -(2 / 10) then "negative"
    else "neutral"
  let dl := if dis > 2 then "high" else if dis > 0 then "medium" else "low"
  let ki := ((analyzeKeywords text).diagnostic_keywords.map (·.term)).take 7
  { overall_sentiment := overall
  , sentiment_score := round2 score
  , distress_level := dl
  , emotional_indicators := ki
  , confidence := none
  , analysis_type := "rule_based_fallback"
  , model := none }

/-- Existence of a match of the alternation regex `\b(w1|w2|...)\b` in
the lowered text.  The alternatives in the source lists are words that
can never overlap at word boundaries, so existence of an alternation
match is existence of a match of some alternative. -/
def hasAny (ws : List (List Char)) (lower : List Char) : Bool :=
  ws.any (fun w => countOccur w lower > 0)

/-- `extractEmotionalIndicators`: independent whole-word pattern scans,
each contributing its tag at most once, in the fixed source order. -/
def extractEmotionalIndicators (text : List Char) : List (List Char) :=
  let lower := lowerStr text
  (if hasAny [cl "pain", cl "hurt", cl "ache", cl "sore", cl "throbbing"] lower
   then [cl "pain"] else []) ++
  (if hasAny [cl "severe", cl "extreme", cl "terrible", cl "unbearable",
              cl "constant", cl "always", cl "chronic"] lower
   then [cl "high_severity"] else []) ++
  (if hasAny [cant, cl "cannot", cl "unable", cl "difficult", cl "hard to",
              cl "struggle", cl "struggling"] lower
   then [cl "functional_limitation"] else []) ++
  (if hasAny [cl "worried", cl "anxious", cl "scared", cl "nervous",
              cl "afraid", cl "frightened", cl "panic"] lower
   then [cl "anxiety"] else []) ++
  (if hasAny [cl "sad", cl "depressed", cl "hopeless", cl "down",
              cl "miserable", cl "worthless"] lower
   then [cl "depression"] else []) ++
  (if hasAny [cl "emergency", cl "urgent", cl "immediate", cl "sudden",
              cl "worst"] lower
   then [cl "urgency"] else []) ++
  (if hasAny [cl "better", cl "improved", cl "improving", cl "relief",
              cl "relieved", cl "easier"] lower
   then [cl "improvement"] else [])

/-- A well-formed classification delivered by the Transformers.js
pipeline: the label of `result[0]` and its confidence. -/
structure PrimaryRaw where
  label : String
  score : ℚ
deriving Repr, DecidableEq

/-- ASCII lowering of a `String`, for `result[0].label.toLowerCase()`. -/
def lowerString (s : String) : String := ⟨lowerStr s.data⟩

/-- The primary (Transformers.js) branch of `analyzeSentiment`, applied
to a successfully obtained classification. -/
def primaryResult (raw : PrimaryRaw) (text : List Char) : SentimentResult :=
  let label := lowerString raw.label
  let conf := raw.score
  let score := if label = "positive" then conf else -conf
  let dl :=
    if label = "negative" then
      if conf > 9 / 10 then "high"
      else if conf > 7 / 10 then "medium"
      else "low"
    else "low"
  { overall_sentiment := label
  , sentiment_score := round2 score
  , distress_level := dl
  , emotional_indicators := extractEmotionalIndicators text
  , confidence := some ⌊conf * 100 + 1 / 2⌋
  , analysis_type := "transformers_bert"
  , model := some "distilbert-base-uncased-finetuned-sst-2" }

/-- `analyzeSentiment`.  The `primary` argument is the outcome of the
whole guarded block of the source `try`: obtaining the lazily initialized
classifier and running it on the text.  `Except.error` covers every way
that block can fail, including initialization failure; the source `catch`
then redirects to the rule-based fallback, so the function as a whole is
total (never throws). -/
def analyzeSentiment (primary : Except String PrimaryRaw) (text : List Char) :
    SentimentResult :=
  match primary with
  | .ok raw => primaryResult raw text
  | .error _ => analyzeSentimentFallback text

/-! ### Semantic theme classification -/

/-- The Semantic Analysis Result of `analyzeSemantics`. -/
structure SemResult where
  key_themes : List String
  symptom_severity : String
  functional_impact : String
  temporal_patterns : String
deriving Repr, DecidableEq

/-- `analyzeSemantics` of the source. -/
def analyzeSemantics (text : List Char) : SemResult :=
  let topWords := (analyzeKeywords text).diagnostic_keywords.map (·.term)
  let themes :=
    (if topWords.any (fun w => w = cl "pain" ∨ w = cl "ache" ∨ w = cl "sore")
     then ["widespread pain"] else []) ++
    (if topWords.contains (cl "fatigue") then ["fatigue"] else []) ++
    (if topWords.contains (cl "nausea") then ["nausea"] else []) ++
    (if topWords.contains (cl "sleep") || topWords.contains (cl "insomnia")
     then ["sleep disturbances"] else []) ++
    (if topWords.contains (cl "stomach") || topWords.contains (cl "bloated")
     then ["gastrointestinal issues"] else []) ++
    (if topWords.contains (cl "dizzy") || topWords.contains (cl "dizziness")
     then ["dizziness"] else [])
  let lower := lowerStr text
  let severeCount :=
    countList [cl "severe", cl "extreme", cl "terrible", cl "unbearable"] lower
  let functionalCount := countList [cant, cl "unable", cl "difficult", cl "hard"] lower
  let chronicCount := countList [cl "constantly", cl "always", cl "chronic", cl "ongoing"] lower
  { key_themes := themes
  , symptom_severity := if severeCount > 1 then "severe" else "moderate"
  , functional_impact := if functionalCount > 1 then "severe" else "moderate"
  , temporal_patterns := if chronicCount > 0 then "chronic" else "acute" }

/-! ### Provider clients, orchestrator, consensus -/

/-- JSON values, for the bodies the provider clients parse. -/
inductive JsonVal where
  | null : JsonVal
  | bool (b : Bool) : JsonVal
  | num (n : ℤ) : JsonVal
  | str (s : String) : JsonVal
  | arr (xs : List JsonVal) : JsonVal
  | obj (fields : List (String × JsonVal)) : JsonVal
deriving Repr

/-- The observable outcome of one provider HTTP exchange, as far as the
client code inspects it: the `response.ok` flag, the `statusText`, and
the result of extracting and `JSON.parse`-ing the model content (`none`
when extraction or parsing throws). -/
structure ProviderHttp where
  ok : Bool
  statusText : String
  contentParse : Option JsonVal
deriving Repr

/-- `callOpenAI`: fail on a missing (or empty, hence falsy) API key, on a
non-ok HTTP status, or on unparseable content; otherwise return whatever
JSON value the model produced, without any shape validation. -/
def callOpenAI (apiKey : Option String) (resp : ProviderHttp) :
    Except String JsonVal :=
  if apiKey.isNone then .error "OpenAI API key not configured"
  else if !resp.ok then .error ("OpenAI API error: " ++ resp.statusText)
  else
    match resp.contentParse with
    | some v => .ok v
    | none => .error "Unexpected token in JSON"

/-- `callOllama`: as `callOpenAI` but with no credential requirement. -/
def callOllama (resp : ProviderHttp) : Except String JsonVal :=
  if !resp.ok then .error ("Ollama API error: " ++ resp.statusText)
  else
    match resp.contentParse with
    | some v => .ok v
    | none => .error "Unexpected token in JSON"

/-- Field lookup in a JSON object field list (first binding wins). -/
def jlookup (fields : List (String × JsonVal)) (k : String) : Option JsonVal :=
  match fields with
  | [] => none
  | (k', v) :: rest => if k' = k then some v else jlookup rest k

/-- Modelled from the spec: the expected Diagnostic Suggestion shape
(`suggested_diagnoses` up to 3 strings, `recommended_tests` up to 5,
`treatment_suggestions` up to 5, `follow_up_recommendations` a string).
The source defines no such check; this definition follows the
specification wording so the client behaviour can be compared against
it. -/
def specDiagnosticShape (v : JsonVal) : Bool :=
  match v with
  | .obj fields =>
    (match jlookup fields "suggested_diagnoses" with
     | some (.arr xs) => xs.length ≤ 3 && xs.all (fun x => match x with | .str _ => true | _ => false)
     | _ => false) &&
    (match jlookup fields "recommended_tests" with
     | some (.arr xs) => xs.length ≤ 5 && xs.all (fun x => match x with | .str _ => true | _ => false)
     | _ => false) &&
    (match jlookup fields "treatment_suggestions" with
     | some (.arr xs) => xs.length ≤ 5 && xs.all (fun x => match x with | .str _ => true | _ => false)
     | _ => false) &&
    (match jlookup fields "follow_up_recommendations" with
     | some (.str _) => true
     | _ => false)
  | _ => false

/-- The Comparison Result object literal of `compareAllModels`: one slot
per configured provider plus the error map, exactly the four fields the
source object carries (`errors` flattened into two optional entries). -/
structure CompareResult where
  openai : Option JsonVal
  ollama : Option JsonVal
  errOpenai : Option String
  errOllama : Option String
deriving Repr

/-- `compareAllModels`, outcome view: each provider call outcome is
recorded in its slot on success and in the error map on failure; both
`try`/`catch` blocks always run to completion, so the function never
throws and always returns the filled result object. -/
def compareAllModels (oOut lOut : Except String JsonVal) : CompareResult :=
  let r0 : CompareResult := ⟨none, none, none, none⟩
  let r1 :=
    match oOut with
    | .ok d => { r0 with openai := some d }
    | .error e => { r0 with errOpenai := some e }
  match lOut with
  | .ok d => { r1 with ollama := some d }
  | .error e => { r1 with errOllama := some e }

/-- Events observable from `compareAllModels`: a progress callback
invocation, the initiation of a provider network call (the point where
its `fetch` is issued), and the settlement of that call. -/
inductive OrchEvent where
  | progress (pid status : String) : OrchEvent
  | invoke (pid : String) : OrchEvent
  | resolve (pid : String) (ok : Bool) : OrchEvent
deriving Repr, DecidableEq

/-- The event sequence of one provider `try`/`catch` block of
`compareAllModels`. -/
def providerTrace (pid : String) (out : Except String JsonVal) : List OrchEvent :=
  match out with
  | .ok _ => [.progress pid "running", .invoke pid, .resolve pid true,
              .progress pid "complete"]
  | .error _ => [.progress pid "running", .invoke pid, .resolve pid false,
                 .progress pid "error"]

/-- `compareAllModels`, trace view.  The source `await`s the OpenAI call
to settlement before the Ollama `try` block begins, so the whole Ollama
segment follows the whole OpenAI segment. -/
def compareAllModelsTrace (oOut lOut : Except String JsonVal) :
    List OrchEvent × CompareResult :=
  (providerTrace "openai" oOut ++ providerTrace "ollama" lOut,
   compareAllModels oOut lOut)

/-- The `successfulModels` list of `getConsensusResult`: a provider is
successful when its slot is filled and it has no error entry. -/
def successfulModels (r : CompareResult) : List String :=
  (if r.openai.isSome && r.errOpenai.isNone then ["openai"] else []) ++
  (if r.ollama.isSome && r.errOllama.isNone then ["ollama"] else [])

/-- The `consensus_note` template string. -/
def consensusNote (succ : List String) : String :=
  "Based on " ++ toString succ.length ++ " AI model(s): " ++
    String.intercalate ", " succ

/-- The `ai_assessment` object: the base provider Diagnostic Suggestion
(spread into the object) plus the consensus note. -/
structure AiAssessment where
  diagnostic : JsonVal
  consensus_note : String
deriving Repr

/-- The Consensus Result bundle. -/
structure ConsensusResult where
  keyword_analysis : KwResult
  sentiment_analysis : SentimentResult
  semantic_analysis : SemResult
  ai_assessment : AiAssessment
deriving Repr

/-- `getConsensusResult`: `null` when no provider succeeded, otherwise
the base provider is `openai` when it succeeded and `ollama` otherwise,
and the local analyses are merged in.  `primary` is the sentiment
classifier outcome threaded to `analyzeSentiment`.  The `.getD .null`
defaults are unreachable: membership of a provider in `successfulModels`
implies its slot is filled. -/
def getConsensusResult (primary : Except String PrimaryRaw)
    (r : CompareResult) (text : List Char) : Option ConsensusResult :=
  let succ := successfulModels r
  if succ.isEmpty then none
  else
    let base :=
      if succ.contains "openai" then r.openai.getD .null else r.ollama.getD .null
    some
      { keyword_analysis := analyzeKeywords text
      , sentiment_analysis := analyzeSentiment primary text
      , semantic_analysis := analyzeSemantics text
      , ai_assessment := ⟨base, consensusNote succ⟩ }

/-! ### Counting machinery for the keyword-percentage bound (C8)

The following definitions do not embed further source code; they are the
reasoning devices used to bound the keyword count of `analyzeKeywords` by
its token count. -/

/-- Every phrase of the taxonomy, in iteration order. -/
def allPhrases : List (List Char) := DIAGNOSTIC_KEYWORDS.flatMap (·.phrases)

/-- Every single word of the taxonomy, in iteration order. -/
def allWords : List (List Char) := DIAGNOSTIC_KEYWORDS.flatMap (·.words)

/-- The first word of a phrase: its longest non-whitespace prefix. -/
def fw (p : List Char) : List Char := p.takeWhile (fun c => !isWs c)

/-- Number of positions of the suffix `s` (preceded by `prev`) where
`\b<pat>\b` matches, with no greedy skipping: an over-approximation of
the greedy scan count. -/
def posCount (pat : List Char) (prev : Option Char) : List Char → Nat
  | [] => 0
  | c :: cs =>
    (if matchOK pat prev (c :: cs) then 1 else 0) + posCount pat (some c) cs

/-- The character immediately preceding the part of the subject that
follows `l`, when `prev` precedes `l`. -/
def lastC (prev : Option Char) (l : List Char) : Option Char :=
  match l.getLast? with
  | some c => some c
  | none => prev

/-- Number of match positions of `\b<pat>\b` that start inside `l`, in
the subject `l ++ r` preceded by `prev`. -/
def startsIn (pat : List Char) (prev : Option Char) :
    List Char → List Char → Nat
  | [], _ => 0
  | c :: cs, r =>
    (if matchOK pat prev (c :: cs ++ r) then 1 else 0) + startsIn pat (some c) cs r

/-- Whether a match of `q` can begin exactly `d` characters after the
beginning of a match of `p`: the characters shared by the two matched
spans must agree, the `\b` before the `q` match must hold inside `p`
(when `d > 0`), and the `\b` after the `q` match must hold inside `p`
(when the `q` span ends strictly inside the `p` span).  For the phrases of
the taxonomy this is only ever possible for `p = q` at `d = 0`. -/
def crossPossible (p q : List Char) (d : Nat) : Bool :=
  ((p.drop d).isPrefixOf q || q.isPrefixOf (p.drop d)) &&
  (d == 0 || bdry (p.take d).getLast? q.head?) &&
  (p.length ≤ d + q.length || bdry q.getLast? (p.drop (d + q.length)).head?)

/-- The contribution of one token to the word pass, given the joined
matched-phrase keys `pf`: `1` exactly when the token is not skipped as a
substring of `pf` and belongs to some category word list. -/
def tokContrib (pf t : List Char) : Bool :=
  !isSub t pf && DIAGNOSTIC_KEYWORDS.any (·.words.contains t)

/-- Total word-pass contribution of the tokens of `s`. -/
def WT (pf s : List Char) : Nat := (splitWs s).countP (tokContrib pf)

/-- Total match-position count over all phrases of the taxonomy. -/
def PT (prev : Option Char) (s : List Char) : Nat :=
  (allPhrases.map (fun p => posCount p prev s)).sum

/-- At most one entry per non-whitespace term: the invariant of the entry
list under the word pass, which makes every bump add exactly one to the
total count. -/
def entriesWordOk (entries : List KwEntry) : Prop :=
  ∀ u : List Char, (∀ c ∈ u, isWs c = false) →
    entries.countP (fun x => decide (x.term = u)) ≤ 1

/-! ## Helper lemmas -/

/-- No two (phrase, phrase, offset) triples of the taxonomy admit
overlapping matches, except a phrase with itself at offset zero. -/
theorem tax_cross : (allPhrases.all (fun p => allPhrases.all (fun q =>
    (List.range p.length).all (fun d =>
      !(crossPossible p q d) || (p == q && d == 0))))) = true := by decide

/-- Every phrase begins with a word character. -/
theorem tax_head : (allPhrases.all (fun p =>
    match p.head? with | some c => isWordChar c | none => false)) = true := by
  decide

/-- Every phrase contains a whitespace character (its separating space). -/
theorem tax_space : (allPhrases.all (fun p => p.any isWs)) = true := by decide

/-- Every taxonomy word is nonempty and consists of word characters. -/
theorem tax_wordchars :
    (allWords.all (fun w => !w.isEmpty && w.all isWordChar)) = true := by decide

/-- No word is registered twice across the taxonomy. -/
theorem tax_words_nodup : allWords.Nodup := by decide

/-- No phrase is registered twice across the taxonomy. -/
theorem tax_phrases_nodup : allPhrases.Nodup := by decide

/-- A word character is never a whitespace character. -/
theorem not_ws_of_wordChar {c : Char} (h : isWordChar c = true) :
    isWs c = false := by
  by_contra hw
  have hw' : isWs c = true := by
    cases hws : isWs c
    · exact absurd hws hw
    · rfl
  simp only [isWordChar, Bool.or_eq_true, Bool.and_eq_true,
    decide_eq_true_eq] at h
  simp only [isWs, Bool.or_eq_true, Bool.and_eq_true,
    decide_eq_true_eq] at hw'
  omega

/-- The greedy scan counts at most as many matches as there are matching
positions. -/
theorem scanCount_le_posCount (pat : List Char) :
    ∀ (s : List Char) (skip : Nat) (prev : Option Char),
      scanCount pat skip prev s ≤ posCount pat prev s := by
  intro s
  induction s with
  | nil => intro skip prev; cases skip <;> simp [scanCount, posCount]
  | cons c cs ih =>
    intro skip prev
    cases skip with
    | zero =>
      by_cases h : matchOK pat prev (c :: cs) = true
      · simp only [scanCount, posCount, h, if_true]
        have := ih (pat.length - 1) (some c)
        omega
      · have h' : matchOK pat prev (c :: cs) = false := by simpa using h
        simp only [scanCount, posCount, h', if_false, Bool.false_eq_true]
        have := ih 0 (some c)
        omega
    | succ k =>
      simp only [scanCount, posCount]
      have := ih k (some c)
      split <;> omega

/-- If some position matches, the greedy scan finds at least one match. -/
theorem scanCount_pos_of_posCount (pat : List Char) :
    ∀ (s : List Char) (prev : Option Char),
      posCount pat prev s ≠ 0 → scanCount pat 0 prev s ≠ 0 := by
  intro s
  induction s with
  | nil => intro prev h; simp [posCount] at h
  | cons c cs ih =>
    intro prev h
    by_cases hm : matchOK pat prev (c :: cs) = true
    · simp [scanCount, hm]
    · have hm' : matchOK pat prev (c :: cs) = false := by simpa using hm
      simp only [posCount, hm', Bool.false_eq_true, if_false, Nat.zero_add] at h
      simp only [scanCount, hm', Bool.false_eq_true, if_false]
      exact ih (some c) h

theorem lastC_nil (prev : Option Char) : lastC prev [] = prev := rfl

theorem lastC_cons (prev : Option Char) (c : Char) (cs : List Char) :
    lastC prev (c :: cs) = lastC (some c) cs := by
  cases cs with
  | nil => rfl
  | cons c2 cs2 =>
    simp only [lastC, List.getLast?_cons_cons]
    cases hg : (c2 :: cs2).getLast? with
    | some c3 => rfl
    | none => simp [List.getLast?_eq_none_iff] at hg

theorem lastC_append (prev : Option Char) (l1 l2 : List Char) :
    lastC prev (l1 ++ l2) = lastC (lastC prev l1) l2 := by
  induction l1 generalizing prev with
  | nil => rfl
  | cons c cs ih => simp only [List.cons_append, lastC_cons, ih]

/-- Splitting the match-position count of `l ++ r` at the boundary. -/
theorem posCount_append (pat : List Char) :
    ∀ (l : List Char) (prev : Option Char) (r : List Char),
      posCount pat prev (l ++ r) =
        startsIn pat prev l r + posCount pat (lastC prev l) r := by
  intro l
  induction l with
  | nil => intro prev r; simp [startsIn, lastC]
  | cons c cs ih =>
    intro prev r
    simp only [List.cons_append, posCount, startsIn, ih (some c), lastC_cons,
      List.append_eq]
    omega

theorem consHead_ne_nil (c : Char) (l : List (List Char)) :
    consHead c l ≠ [] := by
  cases l <;> simp [consHead]

theorem splitWs_ne_nil (s : List Char) : splitWs s ≠ [] := by
  induction s with
  | nil => simp [splitWs]
  | cons c cs ih =>
    simp only [splitWs]
    by_cases h : isWs c = true
    · by_cases h2 : headWs cs = true <;> simp [h, h2, ih]
    · simp [h, consHead_ne_nil]

/-- A fully non-whitespace string is a single token. -/
theorem splitWs_nonws {t : List Char} (h : ∀ c ∈ t, isWs c = false) :
    splitWs t = [t] := by
  induction t with
  | nil => rfl
  | cons c cs ih =>
    have hc : isWs c = false := h c (by simp)
    have ih2 := ih (fun c2 hc2 => h c2 (by simp [hc2]))
    simp [splitWs, hc, ih2, consHead]

/-- Peeling a whitespace run from the front of the subject. -/
theorem splitWs_ws_peel :
    ∀ (w r : List Char), (∀ c ∈ w, isWs c = true) → w ≠ [] →
      (∀ c, r.head? = some c → isWs c = false) →
      splitWs (w ++ r) = [] :: splitWs r := by
  intro w
  induction w with
  | nil => intro r _ h0 _; exact absurd rfl h0
  | cons c cs ih =>
    intro r hw _ hr
    have hc : isWs c = true := hw c (by simp)
    cases cs with
    | nil =>
      cases r with
      | nil => simp [splitWs, headWs, hc, consHead]
      | cons c2 r2 =>
        have hc2 : isWs c2 = false := hr c2 rfl
        simp [splitWs, headWs, hc, hc2]
    | cons c2 cs2 =>
      have hc2 : isWs c2 = true := hw c2 (by simp)
      have ih2 := ih r (fun x hx => hw x (by simp [hx])) (by simp) hr
      simpa [splitWs, headWs, hc, hc2] using ih2

/-- Peeling a leading token and its trailing whitespace run. -/
theorem splitWs_peel (t w r : List Char) (ht : ∀ c ∈ t, isWs c = false)
    (hw : ∀ c ∈ w, isWs c = true) (hw0 : w ≠ [])
    (hr : ∀ c, r.head? = some c → isWs c = false) :
    splitWs (t ++ w ++ r) = t :: splitWs r := by
  induction t with
  | nil => simpa using splitWs_ws_peel w r hw hw0 hr
  | cons c cs ih =>
    have hc : isWs c = false := ht c (by simp)
    have ih2 := ih (fun x hx => ht x (by simp [hx]))
    simp only [List.cons_append, splitWs, hc, Bool.false_eq_true, if_false,
      List.append_eq]
    rw [ih2]
    rfl

/-- Every character of every token of `splitWs` is non-whitespace. -/
theorem splitWs_tokens_nonws :
    ∀ (s : List Char), ∀ t ∈ splitWs s, ∀ c ∈ t, isWs c = false := by
  intro s
  induction s with
  | nil =>
    intro t ht x hx
    simp only [splitWs, List.mem_singleton] at ht
    simp [ht] at hx
  | cons c cs ih =>
    intro t ht x hx
    by_cases h : isWs c = true
    · simp only [splitWs, h, if_true] at ht
      by_cases h2 : headWs cs = true
      · simp only [h2, if_true] at ht
        exact ih t ht x hx
      · simp only [h2, Bool.false_eq_true, if_false, List.mem_cons] at ht
        rcases ht with ht | ht
        · simp [ht] at hx
        · exact ih t ht x hx
    · have hc : isWs c = false := by simpa using h
      simp only [splitWs, hc, Bool.false_eq_true, if_false] at ht
      cases hs : splitWs cs with
      | nil => exact absurd hs (splitWs_ne_nil cs)
      | cons t0 ts =>
        simp only [hs, consHead, List.mem_cons] at ht
        rcases ht with ht | ht
        · subst ht
          simp only [List.mem_cons] at hx
          rcases hx with hx | hx
          · simpa [hx] using hc
          · exact ih t0 (by simp [hs]) x hx
        · exact ih t (by simp [hs, ht]) x hx

/-- `isSub` is substring (infix) occurrence. -/
theorem isSub_agrees_substring (n h : List Char) : isSub n h = true ↔ n <:+: h := by
  induction h with
  | nil =>
    simp only [isSub]
    constructor
    · intro hh
      by_cases hp : n.isPrefixOf ([] : List Char) = true
      · have : n <+: ([] : List Char) := by simpa using hp
        exact this.isInfix
      · simp [hp] at hh
    · intro hh
      have : n = [] := List.eq_nil_of_infix_nil hh
      simp [this, isSub, List.isPrefixOf]
  | cons c t ih =>
    by_cases hp : n.isPrefixOf (c :: t) = true
    · have h1 : isSub n (c :: t) = true := by simp [isSub, hp]
      have h2 : n <+: c :: t := by simpa using hp
      simp [h1, h2.isInfix]
    · have h1 : isSub n (c :: t) = isSub n t := by
        simp only [isSub]
        simp [hp]
      rw [h1, ih, List.infix_cons_iff]
      have h2 : ¬ n <+: c :: t := by simpa using hp
      simp [h2]

/-- Extraction of one matching position from a positive `startsIn`. -/
theorem startsIn_pos_extract (pat : List Char) :
    ∀ (l : List Char) (prev : Option Char) (r : List Char),
      startsIn pat prev l r ≠ 0 →
      ∃ a b, l = a ++ b ∧ b ≠ [] ∧
        matchOK pat (lastC prev a) (b ++ r) = true := by
  intro l
  induction l with
  | nil => intro prev r h; simp [startsIn] at h
  | cons c cs ih =>
    intro prev r h
    by_cases hm : matchOK pat prev (c :: cs ++ r) = true
    · exact ⟨[], c :: cs, rfl, by simp, by simpa using hm⟩
    · have hm' : matchOK pat prev (c :: cs ++ r) = false := by simpa using hm
      simp only [startsIn, List.append_eq, hm', Bool.false_eq_true, if_false,
        Nat.zero_add] at h
      obtain ⟨a, b, hab, hb, hmk⟩ := ih (some c) r h
      exact ⟨c :: a, b, by simp [hab], hb, by rwa [lastC_cons]⟩

/-- Extraction of two matching positions, the second strictly deeper,
from a `startsIn` of at least two. -/
theorem startsIn_two_extract (pat : List Char) :
    ∀ (l : List Char) (prev : Option Char) (r : List Char),
      2 ≤ startsIn pat prev l r →
      ∃ a x b2 a2 b3, l = a ++ (x :: b2) ∧
        matchOK pat (lastC prev a) ((x :: b2) ++ r) = true ∧
        b2 = a2 ++ b3 ∧ b3 ≠ [] ∧
        matchOK pat (lastC (some x) a2) (b3 ++ r) = true := by
  intro l
  induction l with
  | nil => intro prev r h; simp [startsIn] at h
  | cons c cs ih =>
    intro prev r h
    by_cases hm : matchOK pat prev (c :: cs ++ r) = true
    · simp only [startsIn, List.append_eq, hm, if_true] at h
      have h2 : startsIn pat (some c) cs r ≠ 0 := by omega
      obtain ⟨a2, b3, hab, hb, hmk⟩ := startsIn_pos_extract pat cs (some c) r h2
      exact ⟨[], c, cs, a2, b3, rfl, by simpa using hm, hab, hb, hmk⟩
    · have hm' : matchOK pat prev (c :: cs ++ r) = false := by simpa using hm
      simp only [startsIn, List.append_eq, hm', Bool.false_eq_true, if_false,
        Nat.zero_add] at h
      obtain ⟨a, x, b2, a2, b3, hab, hm1, hsplit, hb, hm2⟩ := ih (some c) r h
      exact ⟨c :: a, x, b2, a2, b3, by simp [hab], by rwa [lastC_cons], hsplit,
        hb, hm2⟩

/-- A positive sum over a list has a positive element. -/
theorem sum_pos_exists {α : Type} (f : α → Nat) :
    ∀ (l : List α), 1 ≤ (l.map f).sum → ∃ x ∈ l, 1 ≤ f x := by
  intro l
  induction l with
  | nil => intro h; simp at h
  | cons a l ih =>
    intro h
    by_cases ha : 1 ≤ f a
    · exact ⟨a, by simp, ha⟩
    · have : 1 ≤ (l.map f).sum := by
        simp only [List.map_cons, List.sum_cons] at h
        omega
      obtain ⟨x, hx, hfx⟩ := ih this
      exact ⟨x, by simp [hx], hfx⟩

/-- A sum of at least two over a duplicate-free list comes from one
element of weight two or two distinct elements of weight one. -/
theorem sum_two_cases {α : Type} (f : α → Nat) :
    ∀ (l : List α), l.Nodup → 2 ≤ (l.map f).sum →
      (∃ x ∈ l, 2 ≤ f x) ∨
      (∃ x ∈ l, ∃ y ∈ l, x ≠ y ∧ 1 ≤ f x ∧ 1 ≤ f y) := by
  intro l
  induction l with
  | nil => intro _ h; simp at h
  | cons a l ih =>
    intro hnd h
    simp only [List.map_cons, List.sum_cons] at h
    have hnd2 : l.Nodup := (List.nodup_cons.mp hnd).2
    have hna : a ∉ l := (List.nodup_cons.mp hnd).1
    by_cases h2 : 2 ≤ f a
    · exact Or.inl ⟨a, by simp, h2⟩
    · by_cases h1 : 1 ≤ f a
      · have : 1 ≤ (l.map f).sum := by omega
        obtain ⟨y, hy, hfy⟩ := sum_pos_exists f l this
        exact Or.inr ⟨a, by simp, y, by simp [hy], fun he => hna (he ▸ hy),
          h1, hfy⟩
      · have : 2 ≤ (l.map f).sum := by omega
        rcases ih hnd2 this with ⟨x, hx, hfx⟩ | ⟨x, hx, y, hy, hxy, hfx, hfy⟩
        · exact Or.inl ⟨x, by simp [hx], hfx⟩
        · exact Or.inr ⟨x, by simp [hx], y, by simp [hy], hxy, hfx, hfy⟩

/-- Unpacking a successful `\b<pat>\b` match. -/
theorem matchOK_elim {pat : List Char} {prev : Option Char} {s : List Char}
    (h : matchOK pat prev s = true) :
    pat ≠ [] ∧ pat <+: s ∧ bdry prev pat.head? = true ∧
      bdry pat.getLast? ((s.drop pat.length).head?) = true := by
  simp only [matchOK, Bool.and_eq_true, Bool.not_eq_eq_eq_not, Bool.not_true] at h
  obtain ⟨⟨⟨h1, h2⟩, h3⟩, h4⟩ := h
  refine ⟨?_, ?_, h3, h4⟩
  · intro he
    rw [he] at h1
    simp [List.isEmpty] at h1
  · exact List.isPrefixOf_iff_prefix.mp h2

theorem lastC_of_ne_nil (prev : Option Char) {l : List Char} (h : l ≠ []) :
    lastC prev l = l.getLast? := by
  cases hg : l.getLast? with
  | none => exact absurd (List.getLast?_eq_none_iff.mp hg) h
  | some c => simp [lastC, hg]

/-- Two overlapping matches of taxonomy phrases force `crossPossible`. -/
theorem cross_of_matches {p q : List Char} {prevp : Option Char}
    {u : List Char} {d : Nat}
    (hp : matchOK p prevp u = true)
    (hq : matchOK q (lastC prevp (u.take d)) (u.drop d) = true)
    (hd : d < p.length) :
    crossPossible p q d = true := by
  obtain ⟨hp0, hppre, hpb, hpe⟩ := matchOK_elim hp
  obtain ⟨hq0, hqpre, hqb, hqe⟩ := matchOK_elim hq
  obtain ⟨t, ht⟩ := hppre
  have hdp : d ≤ p.length := Nat.le_of_lt hd
  have hud : u.drop d = p.drop d ++ t := by
    rw [← ht, List.drop_append_of_le_length hdp]
  have hut : u.take d = p.take d := by
    rw [← ht, List.take_append_of_le_length hdp]
  simp only [crossPossible, Bool.and_eq_true, Bool.or_eq_true]
  refine ⟨⟨?_, ?_⟩, ?_⟩
  · -- character agreement on the overlap
    have h1 : q <+: p.drop d ++ t := hud ▸ hqpre
    have h2 : p.drop d <+: p.drop d ++ t := List.prefix_append _ _
    rcases List.prefix_or_prefix_of_prefix h2 h1 with hc | hc
    · exact Or.inl (by simpa using List.isPrefixOf_iff_prefix.mpr hc)
    · exact Or.inr (by simpa using List.isPrefixOf_iff_prefix.mpr hc)
  · -- the word boundary before the q match, inside the p span
    rcases Nat.eq_zero_or_pos d with hd0 | hdpos
    · simp [hd0]
    · refine Or.inr ?_
      have htd : p.take d ≠ [] := by
        have : (p.take d).length = d := by
          simp [List.length_take, Nat.min_eq_left hdp]
        intro he
        rw [he] at this
        simp at this
        omega
      rw [hut, lastC_of_ne_nil prevp htd] at hqb
      exact hqb
  · -- the word boundary after the q match, when it ends inside the p span
    rcases Nat.lt_or_ge (d + q.length) p.length with hlt | hge
    · refine Or.inr ?_
      have hqlen : q.length ≤ (p.drop d).length := by
        simp only [List.length_drop]
        omega
      have h1 : (u.drop d).drop q.length = p.drop (d + q.length) ++ t := by
        rw [hud, List.drop_append_of_le_length hqlen, List.drop_drop,
          Nat.add_comm]
      have h2 : p.drop (d + q.length) ≠ [] := by
        intro he
        have := congrArg List.length he
        simp only [List.length_drop, List.length_nil] at this
        omega
      rw [h1] at hqe
      rwa [List.head?_append_of_ne_nil _ h2] at hqe
    · exact Or.inl (by simpa using hge)

/-- `crossPossible` never holds between distinct taxonomy phrases nor at a
nonzero offset. -/
theorem tax_no_cross {p q : List Char} (hp : p ∈ allPhrases)
    (hq : q ∈ allPhrases) {d : Nat} (hd : d < p.length)
    (hc : crossPossible p q d = true) : p = q ∧ d = 0 := by
  have h := tax_cross
  simp only [List.all_eq_true] at h
  have h2 := h p hp q hq d (by simpa using hd)
  rw [hc] at h2
  simp only [Bool.not_true, Bool.false_or, Bool.and_eq_true, beq_iff_eq] at h2
  exact h2

/-- A match cannot start on a whitespace character. -/
theorem matchOK_ws_head {pat : List Char} (hpat : pat ∈ allPhrases)
    (prev : Option Char) (c : Char) (s : List Char) (hc : isWs c = true) :
    matchOK pat prev (c :: s) = false := by
  by_contra h
  have h' : matchOK pat prev (c :: s) = true := by
    cases hm : matchOK pat prev (c :: s)
    · exact absurd hm h
    · rfl
  obtain ⟨h0, hpre, -, -⟩ := matchOK_elim h'
  have hh := tax_head
  simp only [List.all_eq_true] at hh
  have hh2 := hh pat hpat
  cases hpat2 : pat with
  | nil => exact h0 hpat2
  | cons c2 cs2 =>
    rw [hpat2] at hpre hh2
    obtain ⟨t2, ht2⟩ := hpre
    simp only [List.cons_append] at ht2
    have hc2 : c2 = c := by
      have := congrArg List.head? ht2
      simpa using this
    simp only [List.head?_cons] at hh2
    rw [hc2] at hh2
    rw [not_ws_of_wordChar hh2] at hc
    exact Bool.false_ne_true hc

/-- No match position lies inside a whitespace run. -/
theorem startsIn_ws_zero {pat : List Char} (hpat : pat ∈ allPhrases) :
    ∀ (w : List Char) (prev : Option Char) (r : List Char),
      (∀ c ∈ w, isWs c = true) → startsIn pat prev w r = 0 := by
  intro w
  induction w with
  | nil => intro prev r _; rfl
  | cons c cs ih =>
    intro prev r hw
    have hc : isWs c = true := hw c (by simp)
    have hm := matchOK_ws_head hpat prev c (cs ++ r) hc
    simp only [startsIn, List.cons_append, List.append_eq, hm,
      Bool.false_eq_true, if_false, Nat.zero_add]
    exact ih (some c) r (fun x hx => hw x (by simp [hx]))

/-- No match position lies inside an all-non-whitespace subject. -/
theorem posCount_nonws_zero {pat : List Char} (hpat : pat ∈ allPhrases) :
    ∀ (s : List Char) (prev : Option Char),
      (∀ c ∈ s, isWs c = false) → posCount pat prev s = 0 := by
  intro s
  induction s with
  | nil => intro prev _; rfl
  | cons c cs ih =>
    intro prev hs
    have hm : matchOK pat prev (c :: cs) = false := by
      by_contra h
      have h' : matchOK pat prev (c :: cs) = true := by
        cases hm2 : matchOK pat prev (c :: cs)
        · exact absurd hm2 h
        · rfl
      obtain ⟨h0, hpre, -, -⟩ := matchOK_elim h'
      have hsp := tax_space
      simp only [List.all_eq_true] at hsp
      have hsp2 := hsp pat hpat
      simp only [List.any_eq_true] at hsp2
      obtain ⟨x, hx, hxw⟩ := hsp2
      have hxmem : x ∈ c :: cs := hpre.subset hx
      rw [hs x hxmem] at hxw
      exact Bool.false_ne_true hxw
    simp only [posCount, hm, Bool.false_eq_true, if_false, Nat.zero_add]
    exact ih (some c) (fun x hx => hs x (by simp [hx]))

theorem takeWhile_append_all {P : Char → Bool} :
    ∀ (l1 l2 : List Char), (∀ a ∈ l1, P a = true) →
      (l1 ++ l2).takeWhile P = l1 ++ l2.takeWhile P := by
  intro l1
  induction l1 with
  | nil => intro l2 _; simp
  | cons c cs ih =>
    intro l2 h
    have hc : P c = true := h c (by simp)
    simp only [List.cons_append, List.takeWhile_cons, hc, if_true]
    rw [ih l2 (fun a ha => h a (by simp [ha]))]

/-- A match that starts inside a token runs past its end: the phrase is
longer than the token suffix it starts on, and its first word is exactly
that suffix. -/
theorem match_in_token {p : List Char} (hp : p ∈ allPhrases)
    {prev : Option Char} {b v : List Char}
    (hb : ∀ c ∈ b, isWs c = false)
    (hv : ∀ c, v.head? = some c → isWs c = true)
    (hm : matchOK p prev (b ++ v) = true) :
    b.length < p.length ∧ fw p = b := by
  obtain ⟨h0, hpre, -, -⟩ := matchOK_elim hm
  have hsp := tax_space
  simp only [List.all_eq_true] at hsp
  have hx := hsp p hp
  simp only [List.any_eq_true] at hx
  obtain ⟨x, hxp, hxw⟩ := hx
  have hlen : b.length < p.length := by
    by_contra hle
    push_neg at hle
    have hbp : b <+: b ++ v := List.prefix_append _ _
    have hpb : p <+: b := by
      rcases List.prefix_or_prefix_of_prefix hpre hbp with hc | hc
      · exact hc
      · rw [hc.eq_of_length_le hle]
    have hxb : x ∈ b := hpb.subset hxp
    rw [hb x hxb] at hxw
    exact Bool.false_ne_true hxw
  refine ⟨hlen, ?_⟩
  obtain ⟨t, ht⟩ := hpre
  have hbl : b.length ≤ p.length := Nat.le_of_lt hlen
  have htake : p.take b.length = b := by
    have := congrArg (List.take b.length) ht
    rwa [List.take_append_of_le_length hbl, List.take_left] at this
  have hdropp : p.drop b.length ++ t = v := by
    have := congrArg (List.drop b.length) ht
    rwa [List.drop_append_of_le_length hbl, List.drop_left] at this
  have hne : p.drop b.length ≠ [] := by
    intro he
    have := congrArg List.length he
    simp only [List.length_drop, List.length_nil] at this
    omega
  cases hd : p.drop b.length with
  | nil => exact absurd hd hne
  | cons c rest =>
    have hcv : v.head? = some c := by
      rw [← hdropp, hd]
      simp
    have hcw : isWs c = true := hv c hcv
    have hpeq : p = b ++ (c :: rest) := by
      conv_lhs => rw [← List.take_append_drop b.length p]
      rw [htake, hd]
    rw [fw, hpeq, takeWhile_append_all b (c :: rest) ?hall]
    · simp [List.takeWhile_cons, hcw]
    · intro a ha
      simp [hb a ha]

/-- Two matches starting inside the same token are the same match. -/
theorem two_suffix_conflict {p q t v : List Char} {prev : Option Char}
    {a1 b1 a2 b2 : List Char}
    (hp : p ∈ allPhrases) (hq : q ∈ allPhrases)
    (ht : ∀ c ∈ t, isWs c = false)
    (hv : ∀ c, v.head? = some c → isWs c = true)
    (h1 : t = a1 ++ b1)
    (hm1 : matchOK p (lastC prev a1) (b1 ++ v) = true)
    (h2 : t = a2 ++ b2)
    (hm2 : matchOK q (lastC prev a2) (b2 ++ v) = true)
    (hle : b2.length ≤ b1.length) : p = q ∧ a1 = a2 := by
  have hlen12 : a1.length + b1.length = a2.length + b2.length := by
    have := congrArg List.length (h1 ▸ h2)
    simpa using this
  have ha12 : a1.length ≤ a2.length := by omega
  set d := b1.length - b2.length with hd
  have hda : a2.length = a1.length + d := by omega
  have hdb : d ≤ b1.length := by omega
  have hb1nonws : ∀ c ∈ b1, isWs c = false := by
    intro c hc
    exact ht c (by simp [h1, hc])
  have hlt1 : b1.length < p.length := (match_in_token hp hb1nonws hv hm1).1
  -- identify the second split inside the first
  have hsplit : a2 = a1 ++ b1.take d ∧ b2 = b1.drop d := by
    have heq : a1 ++ b1 = a2 ++ b2 := h1 ▸ h2
    constructor
    · have := congrArg (List.take a2.length) heq
      rw [List.take_left] at this
      rw [← this, hda, List.take_append_eq_append_take]
      congr 1
      · rw [List.take_of_length_le (by omega)]
      · congr 1
        omega
    · have := congrArg (List.drop a2.length) heq
      rw [List.drop_left] at this
      rw [← this, hda, List.drop_append_eq_append_drop]
      rw [List.drop_of_length_le (by omega)]
      simp only [List.nil_append]
      congr 1
      omega
  obtain ⟨ha2eq, hb2eq⟩ := hsplit
  -- the q match in the coordinates of the p match subject
  have hdrop : (b1 ++ v).drop d = b2 ++ v := by
    rw [List.drop_append_of_le_length hdb, hb2eq]
  have htake2 : (b1 ++ v).take d = b1.take d := by
    rw [List.take_append_of_le_length hdb]
  have hprevq : lastC prev a2 = lastC (lastC prev a1) ((b1 ++ v).take d) := by
    rw [htake2, ha2eq, lastC_append]
  have hdlt : d < p.length := by omega
  have hcross := cross_of_matches hm1 (by rw [← hprevq, hdrop]; exact hm2) hdlt
  obtain ⟨hpq, hd0⟩ := tax_no_cross hp hq hdlt hcross
  have hb12 : b1.length = b2.length := by omega
  refine ⟨hpq, ?_⟩
  rw [ha2eq, hd0]
  simp

/-- Among all phrases, at most one match position starts inside a token,
and when one does, either the token is the first word of the matching
phrase or the token contains a non-word character. -/
theorem token_matches (t v : List Char) (prev : Option Char)
    (ht : ∀ c ∈ t, isWs c = false)
    (hv : ∀ c, v.head? = some c → isWs c = true) :
    (allPhrases.map (fun p => startsIn p prev t v)).sum ≤ 1 ∧
    (1 ≤ (allPhrases.map (fun p => startsIn p prev t v)).sum →
      ∃ p ∈ allPhrases, startsIn p prev t v ≠ 0 ∧
        (fw p = t ∨ ∃ c ∈ t, isWordChar c = false)) := by
  constructor
  · by_contra hM
    push_neg at hM
    have h2 : 2 ≤ (allPhrases.map (fun p => startsIn p prev t v)).sum := hM
    rcases sum_two_cases _ allPhrases tax_phrases_nodup h2 with
      ⟨p, hp, hp2⟩ | ⟨p, hp, q, hq, hpq, hp1, hq1⟩
    · obtain ⟨a, x, b2, a2, b3, hab, hm1, hsplit, hb3, hm2⟩ :=
        startsIn_two_extract p t prev v hp2
      have hm2' : matchOK p (lastC prev (a ++ (x :: a2))) (b3 ++ v) = true := by
        rwa [lastC_append, lastC_cons]
      have h2' : t = (a ++ (x :: a2)) ++ b3 := by
        rw [hab, hsplit]
        simp
      have hlen : b3.length ≤ (x :: b2).length := by
        have := congrArg List.length hsplit
        simp only [List.length_append, List.length_cons] at this ⊢
        omega
      obtain ⟨-, haeq⟩ :=
        two_suffix_conflict hp hp ht hv hab hm1 h2' hm2' hlen
      have := congrArg List.length haeq
      simp only [List.length_append, List.length_cons] at this
      omega
    · obtain ⟨a1, b1, hab1, hb1, hm1⟩ :=
        startsIn_pos_extract p t prev v (by omega)
      obtain ⟨a2, b2, hab2, hb2, hm2⟩ :=
        startsIn_pos_extract q t prev v (by omega)
      rcases Nat.le_total b2.length b1.length with hle | hle
      · exact hpq (two_suffix_conflict hp hq ht hv hab1 hm1 hab2 hm2 hle).1
      · exact hpq (two_suffix_conflict hq hp ht hv hab2 hm2 hab1 hm1 hle).1.symm
  · intro h1
    obtain ⟨p, hp, hpos⟩ :=
      sum_pos_exists (fun p => startsIn p prev t v) allPhrases h1
    have hne : startsIn p prev t v ≠ 0 := by omega
    obtain ⟨a, b, hab, hb, hm⟩ := startsIn_pos_extract p t prev v hne
    have hbnonws : ∀ c ∈ b, isWs c = false := by
      intro c hc
      exact ht c (by simp [hab, hc])
    have hfw : fw p = b := (match_in_token hp hbnonws hv hm).2
    cases a with
    | nil =>
      refine ⟨p, hp, hne, Or.inl ?_⟩
      rw [hfw, hab]
      rfl
    | cons a0 a' =>
      refine ⟨p, hp, hne, Or.inr ?_⟩
      obtain ⟨-, -, hbd, -⟩ := matchOK_elim hm
      have hhead := tax_head
      simp only [List.all_eq_true] at hhead
      have hph := hhead p hp
      cases hpc : p with
      | nil =>
        rw [hpc] at hph
        simp at hph
      | cons pc prest =>
        rw [hpc] at hph
        simp only [List.head?_cons] at hph
        have hane : (a0 :: a') ≠ ([] : List Char) := by simp
        rw [lastC_of_ne_nil prev hane] at hbd
        cases hg : (a0 :: a').getLast? with
        | none => simp [List.getLast?_eq_none_iff] at hg
        | some g =>
          rw [hg, hpc] at hbd
          simp only [List.head?_cons, bdry, wordy] at hbd
          have hgmem : g ∈ a0 :: a' := List.mem_of_getLast?_eq_some hg
          have hgt : g ∈ t := by
            rw [hab]
            exact List.mem_append_left _ hgmem
          refine ⟨g, hgt, ?_⟩
          rw [hph] at hbd
          cases hw : isWordChar g
          · rfl
          · rw [hw] at hbd
            simp at hbd

theorem sum_map_add {α : Type} (f g : α → Nat) :
    ∀ (l : List α), (l.map (fun x => f x + g x)).sum =
      (l.map f).sum + (l.map g).sum := by
  intro l
  induction l with
  | nil => simp
  | cons a l ih => simp [ih]; omega

theorem dropWhile_head_not {P : Char → Bool} :
    ∀ (l : List Char) (c : Char) (cs : List Char),
      l.dropWhile P = c :: cs → P c = false := by
  intro l
  induction l with
  | nil => intro c cs h; simp [List.dropWhile] at h
  | cons a l ih =>
    intro c cs h
    by_cases ha : P a = true
    · rw [List.dropWhile_cons_of_pos ha] at h
      exact ih c cs h
    · have ha' : P a = false := by simpa using ha
      rw [List.dropWhile_cons_of_neg (by simp [ha'])] at h
      cases h
      exact ha'

theorem isSub_nil_left (h : List Char) : isSub [] h = true := by
  cases h <;> rfl

/-- The central bound: over any suffix of the subject whose preceding
character is `prev`, the total number of phrase match positions plus the
word-pass contribution of its tokens is at most its token count, provided
every phrase matching in the suffix has its first word registered as a
substring of `pf`. -/
theorem grand_bound (pf : List Char) :
    ∀ (n : Nat) (s : List Char), s.length ≤ n → ∀ (prev : Option Char),
      (∀ p ∈ allPhrases, posCount p prev s ≠ 0 → isSub (fw p) pf = true) →
      PT prev s + WT pf s ≤ (splitWs s).length := by
  intro n
  induction n with
  | zero =>
    intro s hs prev _
    have hnil : s = [] := List.length_eq_zero.mp (Nat.le_antisymm hs (Nat.zero_le _))
    subst hnil
    have hPT : PT prev [] = 0 := by
      simp only [PT]
      refine List.sum_eq_zero ?_
      intro x hx
      simp only [List.mem_map] at hx
      obtain ⟨p, -, rfl⟩ := hx
      rfl
    have hWT : WT pf [] = 0 := by
      show (splitWs []).countP (tokContrib pf) = 0
      rw [show splitWs [] = [[]] from rfl]
      simp [List.countP_cons, tokContrib, isSub_nil_left]
    rw [hPT, hWT]
    rw [show splitWs [] = [[]] from rfl]
    simp
  | succ n ih =>
    intro s hs prev hH
    have hsplit : s.takeWhile (fun c => !isWs c) ++ s.dropWhile (fun c => !isWs c) = s :=
      List.takeWhile_append_dropWhile _ _
    have ht : ∀ c ∈ s.takeWhile (fun c => !isWs c), isWs c = false := by
      intro c hc
      have := List.mem_takeWhile_imp hc
      simpa using this
    cases hu : s.dropWhile (fun c => !isWs c) with
    | nil =>
      have hts : ∀ c ∈ s, isWs c = false := by
        intro c hc
        have h2 := List.dropWhile_eq_nil_iff.mp hu c hc
        simpa using h2
      have hPT : PT prev s = 0 := by
        simp only [PT]
        refine List.sum_eq_zero ?_
        intro x hx
        simp only [List.mem_map] at hx
        obtain ⟨p, hp, rfl⟩ := hx
        exact posCount_nonws_zero hp _ prev hts
      rw [hPT, Nat.zero_add, WT, splitWs_nonws hts]
      simp only [List.countP_cons, List.countP_nil, List.length_cons,
        List.length_nil]
      split <;> omega
    | cons c0 u2 =>
      have hc0 : isWs c0 = true := by
        have := dropWhile_head_not s c0 u2 hu
        simpa using this
      have huwr : (s.dropWhile (fun c => !isWs c)).takeWhile isWs ++
          (s.dropWhile (fun c => !isWs c)).dropWhile isWs =
          s.dropWhile (fun c => !isWs c) :=
        List.takeWhile_append_dropWhile _ _
      set t := s.takeWhile (fun c => !isWs c) with htdef
      set w := (s.dropWhile (fun c => !isWs c)).takeWhile isWs with hwdef
      set r := (s.dropWhile (fun c => !isWs c)).dropWhile isWs with hrdef
      have hw : ∀ c ∈ w, isWs c = true := fun c hc => List.mem_takeWhile_imp hc
      have hwne : w ≠ [] := by
        rw [hwdef, hu, List.takeWhile_cons, hc0]
        simp
      have hr : ∀ c, r.head? = some c → isWs c = false := by
        intro c hc
        cases hrc : r with
        | nil => rw [hrc] at hc; simp at hc
        | cons c1 r1 =>
          rw [hrc] at hc
          simp only [List.head?_cons, Option.some.injEq] at hc
          subst hc
          exact dropWhile_head_not _ _ _ (hrdef.symm ▸ hrc)
      have hs2 : s = t ++ (w ++ r) := by
        rw [huwr, hsplit]
      have hsw : splitWs s = t :: splitWs r := by
        rw [hs2, ← List.append_assoc]
        exact splitWs_peel t w r ht hw hwne hr
      have hvhead : ∀ c, (w ++ r).head? = some c → isWs c = true := by
        intro c hc
        rw [List.head?_append_of_ne_nil _ hwne] at hc
        cases hwc : w with
        | nil => exact absurd hwc hwne
        | cons cw ws2 =>
          rw [hwc] at hc
          simp only [List.head?_cons, Option.some.injEq] at hc
          rw [← hc]
          exact hw cw (by simp [hwc])
      have hdec : ∀ p ∈ allPhrases, posCount p prev s =
          startsIn p prev t (w ++ r) +
            posCount p (lastC (lastC prev t) w) r := by
        intro p hp
        rw [hs2, posCount_append, posCount_append,
          startsIn_ws_zero hp w (lastC prev t) r hw]
        omega
      have hPT : PT prev s =
          (allPhrases.map (fun p => startsIn p prev t (w ++ r))).sum +
            PT (lastC (lastC prev t) w) r := by
        simp only [PT]
        rw [← sum_map_add]
        congr 1
        exact List.map_congr_left hdec
      have hWT : WT pf s = (if tokContrib pf t then 1 else 0) + WT pf r := by
        simp only [WT, hsw, List.countP_cons]
        omega
      obtain ⟨hM1, hM2⟩ := token_matches t (w ++ r) prev ht hvhead
      have hMC : (allPhrases.map (fun p => startsIn p prev t (w ++ r))).sum +
          (if tokContrib pf t then 1 else 0) ≤ 1 := by
        by_cases hM0 : (allPhrases.map (fun p => startsIn p prev t (w ++ r))).sum = 0
        · rw [hM0]
          split <;> omega
        · obtain ⟨p, hp, hne, hcase⟩ := hM2 (by omega)
          have hcontrib : tokContrib pf t = false := by
            rcases hcase with hfw | ⟨c, hct, hcw⟩
            · have hpos : posCount p prev s ≠ 0 := by
                rw [hdec p hp]
                omega
              have hsub := hH p hp hpos
              rw [hfw] at hsub
              rw [tokContrib, hsub]
              rfl
            · have hnc : DIAGNOSTIC_KEYWORDS.any (·.words.contains t) = false := by
                by_contra hany
                have hany' : DIAGNOSTIC_KEYWORDS.any (·.words.contains t) = true := by
                  cases ha : DIAGNOSTIC_KEYWORDS.any (·.words.contains t)
                  · exact absurd ha hany
                  · rfl
                simp only [List.any_eq_true] at hany'
                obtain ⟨cat, hcat, hct2⟩ := hany'
                have htw : t ∈ allWords := by
                  simp only [allWords, List.mem_flatMap]
                  exact ⟨cat, hcat, by simpa using hct2⟩
                have hwc := tax_wordchars
                simp only [List.all_eq_true] at hwc
                have := hwc t htw
                simp only [Bool.and_eq_true, List.all_eq_true] at this
                have := this.2 c hct
                rw [hcw] at this
                exact Bool.false_ne_true this
              rw [tokContrib, hnc, Bool.and_false]
          rw [hcontrib]
          simpa using hM1
      have hrlen : r.length ≤ n := by
        have := congrArg List.length hs2
        simp only [List.length_append] at this
        have hwlen : 1 ≤ w.length := by
          cases hwc : w with
          | nil => exact absurd hwc hwne
          | cons a b => simp
        omega
      have hH2 : ∀ p ∈ allPhrases,
          posCount p (lastC (lastC prev t) w) r ≠ 0 →
            isSub (fw p) pf = true := by
        intro p hp hne2
        refine hH p hp ?_
        rw [hdec p hp]
        omega
      have hih := ih r hrlen (lastC (lastC prev t) w) hH2
      rw [hPT, hWT, hsw]
      simp only [List.length_cons]
      omega

theorem sumCounts_go :
    ∀ (l : List KwEntry) (a : Nat),
      l.foldl (fun n e => n + e.count) a = a + (l.map (·.count)).sum := by
  intro l
  induction l with
  | nil => intro a; simp
  | cons e l ih =>
    intro a
    simp only [List.foldl_cons, ih, List.map_cons, List.sum_cons]
    omega

theorem sumCounts_eq_sum (l : List KwEntry) :
    sumCounts l = (l.map (·.count)).sum := by
  simpa using sumCounts_go l 0

theorem sumCounts_append (l1 l2 : List KwEntry) :
    sumCounts (l1 ++ l2) = sumCounts l1 + sumCounts l2 := by
  simp [sumCounts_eq_sum]

theorem sumCounts_cons (e : KwEntry) (l : List KwEntry) :
    sumCounts (e :: l) = e.count + sumCounts l := by
  rw [sumCounts_eq_sum, List.map_cons, List.sum_cons, ← sumCounts_eq_sum]

/-- Sum of the phrase-pass inner fold over one category. -/
theorem phraseStep_fold_sum (lower : List Char) (cname : String) :
    ∀ (phs : List (List Char)) (acc : List KwEntry),
      sumCounts (phs.foldl (phraseStep lower cname) acc) =
        sumCounts acc + (phs.map (fun p => countOccur p lower)).sum := by
  intro phs
  induction phs with
  | nil => intro acc; simp
  | cons ph phs ih =>
    intro acc
    simp only [List.foldl_cons, ih, List.map_cons, List.sum_cons]
    rw [phraseStep]
    by_cases hn : countOccur ph lower > 0
    · simp only [hn, if_true, sumCounts_append]
      simp [sumCounts]
      omega
    · simp only [hn, if_false]
      omega

/-- Total of the phrase pass: the sum of the per-phrase match counts. -/
theorem phrasePass_sum (lower : List Char) :
    sumCounts (phrasePass lower) =
      (allPhrases.map (fun p => countOccur p lower)).sum := by
  suffices h : ∀ (cats : List Category) (acc : List KwEntry),
      sumCounts (cats.foldl
          (fun acc cat => cat.phrases.foldl (phraseStep lower cat.name) acc) acc) =
        sumCounts acc +
          ((cats.flatMap (·.phrases)).map (fun p => countOccur p lower)).sum by
    have := h DIAGNOSTIC_KEYWORDS []
    simpa [phrasePass, allPhrases, sumCounts] using this
  intro cats
  induction cats with
  | nil => intro acc; simp
  | cons cat cats ih =>
    intro acc
    simp only [List.foldl_cons, ih, phraseStep_fold_sum, List.flatMap_cons,
      List.map_append, List.sum_append]
    omega

/-- Fold steps of the phrase pass only append entries. -/
theorem phraseStep_fold_mono (lower : List Char) (cname : String) :
    ∀ (phs : List (List Char)) (acc : List KwEntry) (e : KwEntry),
      e ∈ acc → e ∈ phs.foldl (phraseStep lower cname) acc := by
  intro phs
  induction phs with
  | nil => intro acc e he; exact he
  | cons ph phs ih =>
    intro acc e he
    simp only [List.foldl_cons]
    refine ih _ e ?_
    rw [phraseStep]
    split
    · exact List.mem_append_left _ he
    · exact he

theorem phrasePass_outer_mono (lower : List Char) :
    ∀ (cats : List Category) (acc : List KwEntry) (e : KwEntry),
      e ∈ acc →
      e ∈ cats.foldl
        (fun acc cat => cat.phrases.foldl (phraseStep lower cat.name) acc) acc := by
  intro cats
  induction cats with
  | nil => intro acc e he; exact he
  | cons cat cats ih =>
    intro acc e he
    simp only [List.foldl_cons]
    exact ih _ e (phraseStep_fold_mono lower cat.name cat.phrases acc e he)

/-- A phrase with a positive match count gets an entry in the inner fold. -/
theorem phraseStep_fold_mem (lower : List Char) (cname : String) :
    ∀ (phs : List (List Char)) (acc : List KwEntry) (p : List Char),
      p ∈ phs → countOccur p lower ≠ 0 →
      ∃ e ∈ phs.foldl (phraseStep lower cname) acc, e.term = p := by
  intro phs
  induction phs with
  | nil => intro acc p hp _; simp at hp
  | cons ph phs ih =>
    intro acc p hp hpos
    simp only [List.mem_cons] at hp
    rcases hp with hp | hp
    · subst hp
      refine ⟨⟨p, countOccur p lower, cname⟩, ?_, rfl⟩
      simp only [List.foldl_cons]
      refine phraseStep_fold_mono lower cname phs _ _ ?_
      have hgt : countOccur p lower > 0 := Nat.pos_of_ne_zero hpos
      simp only [phraseStep, hgt, if_true]
      exact List.mem_append_right _ (by simp)
    · simp only [List.foldl_cons]
      exact ih _ p hp hpos

/-- A phrase of the taxonomy with a positive match count has an entry in
the phrase pass. -/
theorem phrasePass_mem_of_pos (lower : List Char) {p : List Char}
    (hp : p ∈ allPhrases) (hpos : countOccur p lower ≠ 0) :
    ∃ e ∈ phrasePass lower, e.term = p := by
  suffices h : ∀ (cats : List Category) (acc : List KwEntry),
      p ∈ cats.flatMap (·.phrases) →
      ∃ e ∈ cats.foldl
        (fun acc cat => cat.phrases.foldl (phraseStep lower cat.name) acc) acc,
        e.term = p by
    exact h DIAGNOSTIC_KEYWORDS [] hp
  intro cats
  induction cats with
  | nil => intro acc hmem; simp at hmem
  | cons cat cats ih =>
    intro acc hmem
    simp only [List.flatMap_cons, List.mem_append] at hmem
    simp only [List.foldl_cons]
    rcases hmem with hmem | hmem
    · obtain ⟨e, he, het⟩ := phraseStep_fold_mem lower cat.name cat.phrases acc p hmem hpos
      exact ⟨e, phrasePass_outer_mono lower cats _ e he, het⟩
    · exact ih _ hmem

/-- Every entry of the phrase pass carries a taxonomy phrase as its term. -/
theorem phrasePass_terms_mem (lower : List Char) :
    ∀ e ∈ phrasePass lower, e.term ∈ allPhrases := by
  suffices h : ∀ (cats : List Category) (acc : List KwEntry),
      (∀ e ∈ acc, e.term ∈ allPhrases) →
      (∀ c ∈ cats, c ∈ DIAGNOSTIC_KEYWORDS) →
      ∀ e ∈ cats.foldl
        (fun acc cat => cat.phrases.foldl (phraseStep lower cat.name) acc) acc,
        e.term ∈ allPhrases by
    intro e he
    exact h DIAGNOSTIC_KEYWORDS [] (by simp) (fun c hc => hc) e he
  intro cats
  induction cats with
  | nil => intro acc hacc _ e he; exact hacc e he
  | cons cat cats ih =>
    intro acc hacc hcats e he
    simp only [List.foldl_cons] at he
    refine ih _ ?_ (fun c hc => hcats c (by simp [hc])) e he
    -- entries after the inner fold still carry taxonomy phrases
    have hcat : cat ∈ DIAGNOSTIC_KEYWORDS := hcats cat (by simp)
    clear he ih
    suffices hin : ∀ (phs : List (List Char)) (acc2 : List KwEntry),
        (∀ e ∈ acc2, e.term ∈ allPhrases) →
        (∀ ph ∈ phs, ph ∈ cat.phrases) →
        ∀ e ∈ phs.foldl (phraseStep lower cat.name) acc2, e.term ∈ allPhrases by
      exact hin cat.phrases acc hacc (fun ph hp => hp)
    intro phs
    induction phs with
    | nil => intro acc2 hacc2 _ e he; exact hacc2 e he
    | cons ph phs ih2 =>
      intro acc2 hacc2 hphs e he
      simp only [List.foldl_cons] at he
      refine ih2 _ ?_ (fun x hx => hphs x (by simp [hx])) e he
      intro e2 he2
      rw [phraseStep] at he2
      by_cases hn : countOccur ph lower > 0
      · simp only [hn, if_true, List.mem_append, List.mem_singleton] at he2
        rcases he2 with he2 | he2
        · exact hacc2 e2 he2
        · subst he2
          simp only [allPhrases, List.mem_flatMap]
          exact ⟨cat, hcat, hphs ph (by simp)⟩
      · simp only [hn, if_false] at he2
        exact hacc2 e2 he2

/-- A member of a list of strings occurs as a substring of their
space-joined concatenation. -/
theorem mem_infix_intercalate :
    ∀ (l : List (List Char)) (x : List Char), x ∈ l →
      x <:+: List.intercalate [' '] l := by
  intro l
  induction l with
  | nil => intro x hx; simp at hx
  | cons a l ih =>
    intro x hx
    simp only [List.mem_cons] at hx
    cases l with
    | nil =>
      rcases hx with hx | hx
      · subst hx
        simp [List.intercalate]
      · simp at hx
    | cons b l2 =>
      have hstep : List.intercalate [' '] (a :: b :: l2) =
          a ++ [' '] ++ List.intercalate [' '] (b :: l2) := by
        simp only [List.intercalate, List.intersperse_cons_cons,
          List.flatten_cons]
        simp [List.append_assoc]
      rcases hx with hx | hx
      · subst hx
        rw [hstep, List.append_assoc]
        exact (List.prefix_append x _).isInfix
      · rw [hstep]
        exact (ih x hx).trans (List.suffix_append _ _).isInfix

/-- Every phrase that matches somewhere in the subject has its first word
as a substring of the joined matched-phrase keys. -/
theorem phrasesFound_contains_fw (lower : List Char) :
    ∀ p ∈ allPhrases, posCount p none lower ≠ 0 →
      isSub (fw p) (phrasesFound lower) = true := by
  intro p hp hpos
  have hco : countOccur p lower ≠ 0 :=
    scanCount_pos_of_posCount p lower none hpos
  obtain ⟨e, he, het⟩ := phrasePass_mem_of_pos lower hp hco
  have hmem : p ∈ (phrasePass lower).map (·.term) := by
    simp only [List.mem_map]
    exact ⟨e, he, het⟩
  have hinf : p <:+: phrasesFound lower := by
    rw [phrasesFound]
    exact mem_infix_intercalate _ p hmem
  have hfw : fw p <+: p := List.takeWhile_prefix _
  exact (isSub_agrees_substring _ _).mpr (hfw.isInfix.trans hinf)

theorem countP_map_bump (w u : List Char) :
    ∀ (l : List KwEntry),
      ((l.map (fun e =>
          if e.term = w then { e with count := e.count + 1 } else e)).countP
        (fun x => decide (x.term = u))) =
        l.countP (fun x => decide (x.term = u)) := by
  intro l
  induction l with
  | nil => rfl
  | cons e l ih =>
    simp only [List.map_cons, List.countP_cons, ih]
    by_cases he : e.term = w <;> simp [he]

theorem sumCounts_map_bump (w : List Char) :
    ∀ (l : List KwEntry),
      sumCounts (l.map (fun e =>
          if e.term = w then { e with count := e.count + 1 } else e)) =
        sumCounts l + l.countP (fun x => decide (x.term = w)) := by
  intro l
  induction l with
  | nil => rfl
  | cons e l ih =>
    rw [List.map_cons, sumCounts_cons, sumCounts_cons, ih, List.countP_cons]
    by_cases he : e.term = w
    · rw [if_pos he]
      simp only [he, decide_True, if_true]
      omega
    · rw [if_neg he]
      simp only [he, decide_False, Bool.false_eq_true, if_false]
      omega

/-- With at most one entry for the term, a bump adds exactly one. -/
theorem bumpWord_sum {entries : List KwEntry} {w : List Char} (cat : String)
    (hle : entries.countP (fun x => decide (x.term = w)) ≤ 1) :
    sumCounts (bumpWord entries w cat) = sumCounts entries + 1 := by
  rw [bumpWord]
  by_cases h : entries.any (fun e => decide (e.term = w)) = true
  · simp only [h, if_true]
    have hpos : 0 < entries.countP (fun x => decide (x.term = w)) := by
      rw [List.countP_pos_iff]
      simpa using h
    rw [sumCounts_map_bump]
    omega
  · have h' : entries.any (fun e => decide (e.term = w)) = false := by
      simpa using h
    simp only [h', Bool.false_eq_true, if_false]
    rw [sumCounts_append]
    rfl

theorem bumpWord_inv {entries : List KwEntry} {w : List Char} (cat : String)
    (hinv : entriesWordOk entries) :
    entriesWordOk (bumpWord entries w cat) := by
  intro u hu
  rw [bumpWord]
  by_cases h : entries.any (fun e => decide (e.term = w)) = true
  · simp only [h, if_true, countP_map_bump]
    exact hinv u hu
  · have h' : entries.any (fun e => decide (e.term = w)) = false := by
      simpa using h
    simp only [h', Bool.false_eq_true, if_false, List.countP_append]
    by_cases hwu : w = u
    · subst hwu
      have hzero : entries.countP (fun x => decide (x.term = w)) = 0 := by
        rw [List.countP_eq_zero]
        intro e he
        simp only [decide_eq_true_eq]
        intro het
        exact h (by rw [List.any_eq_true]; exact ⟨e, he, by simp [het]⟩)
      rw [hzero]
      simp
    · have : ((⟨w, 1, cat⟩ : KwEntry) :: []).countP
          (fun x => decide (x.term = u)) = 0 := by
        simp [hwu]
      rw [this]
      simpa using hinv u hu

theorem wordTokenStep_fold_id (w : List Char) :
    ∀ (cats : List Category) (e : List KwEntry),
      (∀ cat ∈ cats, cat.words.contains w = false) →
      cats.foldl (wordTokenStep w) e = e := by
  intro cats
  induction cats with
  | nil => intro e _; rfl
  | cons cat cats ih =>
    intro e h
    simp only [List.foldl_cons, wordTokenStep, h cat (by simp), if_false,
      Bool.false_eq_true]
    exact ih e (fun c hc => h c (by simp [hc]))

theorem not_mem_flatMap_words {w : List Char} :
    ∀ (cats : List Category), w ∉ cats.flatMap (·.words) →
      ∀ cat ∈ cats, cat.words.contains w = false := by
  intro cats hmem cat hcat
  cases hc : cat.words.contains w
  · rfl
  · exfalso
    apply hmem
    simp only [List.mem_flatMap]
    exact ⟨cat, hcat, by simpa using hc⟩

/-- One word-pass token step over a category list with duplicate-free
words: the total grows by at most one, exactly when some category holds
the token. -/
theorem wordTokenStep_fold (w : List Char)
    (hw : ∀ c ∈ w, isWs c = false) :
    ∀ (cats : List Category) (e : List KwEntry), entriesWordOk e →
      (cats.flatMap (·.words)).Nodup →
      sumCounts (cats.foldl (wordTokenStep w) e) ≤
        sumCounts e + (if cats.any (·.words.contains w) then 1 else 0) ∧
      entriesWordOk (cats.foldl (wordTokenStep w) e) := by
  intro cats
  induction cats with
  | nil => intro e hinv _; exact ⟨by simp, hinv⟩
  | cons cat cats ih =>
    intro e hinv hnd
    simp only [List.flatMap_cons, List.nodup_append] at hnd
    obtain ⟨hnd1, hnd2, hdisj⟩ := hnd
    by_cases hc : cat.words.contains w = true
    · have hbump : sumCounts (bumpWord e w cat.name) = sumCounts e + 1 :=
        bumpWord_sum cat.name (hinv w hw)
      have hinvb : entriesWordOk (bumpWord e w cat.name) :=
        bumpWord_inv cat.name hinv
      have hwmem : w ∈ cat.words := by simpa using hc
      have hrest : ∀ cat2 ∈ cats, cat2.words.contains w = false := by
        refine not_mem_flatMap_words cats ?_ 
        intro hmem
        exact hdisj hwmem hmem
      have hid : cats.foldl (wordTokenStep w) (bumpWord e w cat.name) =
          bumpWord e w cat.name :=
        wordTokenStep_fold_id w cats _ hrest
      simp only [List.foldl_cons, wordTokenStep, hc, if_true, hid, hbump,
        List.any_cons, Bool.or_eq_true]
      constructor
      · simp [hc]
      · exact hinvb
    · have hc' : cat.words.contains w = false := by simpa using hc
      have := ih e hinv hnd2
      simp only [List.foldl_cons, wordTokenStep, hc', Bool.false_eq_true,
        if_false, List.any_cons, Bool.or_eq_true]
      obtain ⟨hsum, hinv2⟩ := this
      refine ⟨?_, hinv2⟩
      simp only [hc', Bool.false_eq_true, false_or]
      exact hsum

/-- The word pass adds at most the number of contributing tokens. -/
theorem wordPass_sum (pf : List Char) :
    ∀ (tokens : List (List Char)) (e : List KwEntry), entriesWordOk e →
      (∀ tok ∈ tokens, ∀ c ∈ tok, isWs c = false) →
      sumCounts (wordPass pf tokens e) ≤
        sumCounts e + tokens.countP (tokContrib pf) := by
  intro tokens
  induction tokens with
  | nil => intro e _ _; simp [wordPass]
  | cons tok tokens ih =>
    intro e hinv htok
    have htok1 : ∀ c ∈ tok, isWs c = false := htok tok (by simp)
    have htok2 : ∀ t2 ∈ tokens, ∀ c ∈ t2, isWs c = false :=
      fun t2 ht2 => htok t2 (by simp [ht2])
    simp only [wordPass, List.foldl_cons, List.countP_cons]
    by_cases hsub : isSub tok pf = true
    · have hcontrib : tokContrib pf tok = false := by
        rw [tokContrib, hsub]
        rfl
      rw [hcontrib]
      simp only [Bool.false_eq_true, if_false, Nat.add_zero]
      simp only [hsub, if_true]
      exact ih e hinv htok2
    · have hsub' : isSub tok pf = false := by simpa using hsub
      simp only [hsub', Bool.false_eq_true, if_false]
      have hnodup : (DIAGNOSTIC_KEYWORDS.flatMap (·.words)).Nodup :=
        tax_words_nodup
      have hstep := wordTokenStep_fold tok htok1 DIAGNOSTIC_KEYWORDS e hinv hnodup
      obtain ⟨hsum, hinv2⟩ := hstep
      have hih := ih (wordPassToken e tok) hinv2 htok2
      rw [wordPass] at hih
      rw [wordPassToken] at hih ⊢
      have hcontrib : tokContrib pf tok =
          DIAGNOSTIC_KEYWORDS.any (·.words.contains tok) := by
        rw [tokContrib, hsub']
        simp
      rw [hcontrib]
      by_cases hany : DIAGNOSTIC_KEYWORDS.any (·.words.contains tok) = true
        <;> simp only [hany, if_true, Bool.false_eq_true, if_false] at hsum ⊢
        <;> omega

/-- The phrase pass satisfies the word-pass invariant: its terms are
phrases, which all contain whitespace. -/
theorem phrasePass_inv (lower : List Char) :
    entriesWordOk (phrasePass lower) := by
  intro u hu
  have hzero : (phrasePass lower).countP (fun x => decide (x.term = u)) = 0 := by
    rw [List.countP_eq_zero]
    intro e he
    simp only [decide_eq_true_eq]
    intro het
    have hmem := phrasePass_terms_mem lower e he
    have hsp := tax_space
    simp only [List.all_eq_true] at hsp
    have := hsp e.term hmem
    simp only [List.any_eq_true] at this
    obtain ⟨c, hc, hcw⟩ := this
    rw [het] at hc
    rw [hu c hc] at hcw
    exact Bool.false_ne_true hcw
  omega

/-- The keyword count of `analyzeKeywords` never exceeds its token count. -/
theorem keywordCount_le_totalWords (lower : List Char) :
    sumCounts (wordPass (phrasesFound lower) (splitWs lower)
      (phrasePass lower)) ≤ (splitWs lower).length := by
  have h1 := wordPass_sum (phrasesFound lower) (splitWs lower)
    (phrasePass lower) (phrasePass_inv lower) (splitWs_tokens_nonws lower)
  have h2 : sumCounts (phrasePass lower) ≤ PT none lower := by
    rw [phrasePass_sum, PT]
    refine List.sum_le_sum ?_
    intro p _
    exact scanCount_le_posCount p lower 0 none
  have h3 := grand_bound (phrasesFound lower) lower.length lower le_rfl none
    (phrasesFound_contains_fw lower)
  have hWT : (splitWs lower).countP (tokContrib (phrasesFound lower)) =
      WT (phrasesFound lower) lower := rfl
  rw [hWT] at h1
  omega

/-! ## Claims -/

/-! ## Claims -/

/-- C1: for every input text the sentiment classification is total (the
embedding is a total function; the source catches every failure of the
primary block), and whenever the primary model path fails — initialization
failure or classifier error alike — the returned Sentiment Result is the
rule-based fallback one, whose `analysis_type` is `rule_based_fallback`. -/
theorem sentiment_fallback_on_primary_failure (text : List Char)
    (primary : Except String PrimaryRaw) (h : primary.isOk = false) :
    analyzeSentiment primary text = analyzeSentimentFallback text ∧
    (analyzeSentiment primary text).analysis_type = "rule_based_fallback" := by
  cases primary with
  | ok raw => simp [Except.isOk, Except.toBool] at h
  | error e => exact ⟨rfl, rfl⟩

/-- Witness for C1 at a concrete failing primary outcome and text. -/
theorem sentiment_fallback_on_primary_failure_witness :
    (analyzeSentiment (.error "model load failed") (cl "I feel fine")).analysis_type
      = "rule_based_fallback" :=
  (sentiment_fallback_on_primary_failure (cl "I feel fine")
    (.error "model load failed") rfl).2

/-- C2: the Consensus Builder returns `null` exactly when the Comparison
Result contains zero successful providers, and a non-null Consensus
Result as soon as one provider succeeded. -/
theorem consensus_none_iff_no_success (primary : Except String PrimaryRaw)
    (r : CompareResult) (text : List Char) :
    getConsensusResult primary r text = none ↔ successfulModels r = [] := by
  simp only [getConsensusResult]
  by_cases h : (successfulModels r).isEmpty
  · simp [h, List.isEmpty_iff.mp h]
  · simp only [h, Bool.false_eq_true, if_false]
    simp only [List.isEmpty_iff] at h
    simp [h]

/-- C3: `compareAllModels` never throws (it is a total function of the two
provider outcomes) and the Comparison Result has exactly one outcome slot
per configured provider — filled exactly on success — plus an error-map
entry exactly for each provider that failed. -/
theorem compareAllModels_outcome_slots (oOut lOut : Except String JsonVal) :
    (compareAllModels oOut lOut).openai = oOut.toOption ∧
    (compareAllModels oOut lOut).ollama = lOut.toOption ∧
    ((compareAllModels oOut lOut).errOpenai.isSome = true ↔ oOut.isOk = false) ∧
    ((compareAllModels oOut lOut).errOllama.isSome = true ↔ lOut.isOk = false) := by
  cases oOut <;> cases lOut <;>
    simp [compareAllModels, Except.toOption, Except.isOk, Except.toBool]

/-- C4: for every Comparison Result with at least one success, the
consensus `ai_assessment` is based on the hosted (openai) provider
whenever it succeeded — whether or not the local provider also
succeeded — and on the local (ollama) provider otherwise, and the
`consensus_note` enumerates exactly the successful provider ids and
their count in every configuration. -/
theorem consensus_base_and_note (primary : Except String PrimaryRaw)
    (r : CompareResult) (text : List Char)
    (h : (r.openai.isSome && r.errOpenai.isNone) = true ∨
         (r.ollama.isSome && r.errOllama.isNone) = true) :
    ∃ c, getConsensusResult primary r text = some c ∧
      (∀ d, r.openai = some d → r.errOpenai = none →
        c.ai_assessment.diagnostic = d) ∧
      (∀ d, (r.openai.isSome && r.errOpenai.isNone) = false →
        r.ollama = some d → c.ai_assessment.diagnostic = d) ∧
      c.ai_assessment.consensus_note =
        (if r.openai.isSome && r.errOpenai.isNone then
           if r.ollama.isSome && r.errOllama.isNone then
             "Based on 2 AI model(s): openai, ollama"
           else "Based on 1 AI model(s): openai"
         else "Based on 1 AI model(s): ollama") := by
  by_cases hbo : (r.openai.isSome && r.errOpenai.isNone) = true
  · obtain ⟨d0, hd0⟩ : ∃ d0, r.openai = some d0 := by
      rcases Bool.and_eq_true .. |>.mp hbo with ⟨h1, -⟩
      exact Option.isSome_iff_exists.mp h1
    have hsucc : successfulModels r =
        "openai" :: (if r.ollama.isSome && r.errOllama.isNone
          then ["ollama"] else []) := by
      simp [successfulModels, hbo]
    by_cases hbl : (r.ollama.isSome && r.errOllama.isNone) = true
    · have hnote : consensusNote ["openai", "ollama"] =
          "Based on 2 AI model(s): openai, ollama" := by decide
      have hc : getConsensusResult primary r text = some
          { keyword_analysis := analyzeKeywords text
          , sentiment_analysis := analyzeSentiment primary text
          , semantic_analysis := analyzeSemantics text
          , ai_assessment := ⟨d0, "Based on 2 AI model(s): openai, ollama"⟩ } := by
        simp [getConsensusResult, hsucc, hbl, hd0, hnote]
      refine ⟨_, hc, ?_, ?_, ?_⟩
      · intro d hd _
        rw [hd0] at hd
        cases hd
        rfl
      · intro d hfalse _
        rw [hbo] at hfalse
        cases hfalse
      · simp [hbo, hbl]
    · have hbl' : (r.ollama.isSome && r.errOllama.isNone) = false :=
        Bool.eq_false_iff.mpr hbl
      have hnote : consensusNote ["openai"] =
          "Based on 1 AI model(s): openai" := by decide
      have hc : getConsensusResult primary r text = some
          { keyword_analysis := analyzeKeywords text
          , sentiment_analysis := analyzeSentiment primary text
          , semantic_analysis := analyzeSemantics text
          , ai_assessment := ⟨d0, "Based on 1 AI model(s): openai"⟩ } := by
        simp [getConsensusResult, hsucc, hbl', hd0, hnote]
      refine ⟨_, hc, ?_, ?_, ?_⟩
      · intro d hd _
        rw [hd0] at hd
        cases hd
        rfl
      · intro d hfalse _
        rw [hbo] at hfalse
        cases hfalse
      · simp [hbo, hbl']
  · have hbo' : (r.openai.isSome && r.errOpenai.isNone) = false :=
      Bool.eq_false_iff.mpr hbo
    have hbl : (r.ollama.isSome && r.errOllama.isNone) = true := by
      rcases h with h | h
      · exact absurd h hbo
      · exact h
    obtain ⟨d1, hd1⟩ : ∃ d1, r.ollama = some d1 := by
      rcases Bool.and_eq_true .. |>.mp hbl with ⟨h1, -⟩
      exact Option.isSome_iff_exists.mp h1
    have hsucc : successfulModels r = ["ollama"] := by
      simp [successfulModels, hbo', hbl]
    have hnote : consensusNote ["ollama"] =
        "Based on 1 AI model(s): ollama" := by decide
    have hc : getConsensusResult primary r text = some
        { keyword_analysis := analyzeKeywords text
        , sentiment_analysis := analyzeSentiment primary text
        , semantic_analysis := analyzeSemantics text
        , ai_assessment := ⟨d1, "Based on 1 AI model(s): ollama"⟩ } := by
      simp [getConsensusResult, hsucc, hd1, hnote]
    refine ⟨_, hc, ?_, ?_, ?_⟩
    · intro d hd he
      exfalso
      rw [hd, he] at hbo'
      simp at hbo'
    · intro d _ hd
      rw [hd1] at hd
      cases hd
      rfl
    · simp [hbo']

/-- Witness for C4 at the local-only-success scenario: the hosted provider
failed, the local provider succeeded; the base is the ollama diagnostic
and the note names only ollama. -/
theorem consensus_base_and_note_witness :
    ∃ c, getConsensusResult (.error "down")
        ⟨none, some (.str "ollama diagnosis"), some "OpenAI API error: 500", none⟩
        (cl "feels fine") = some c ∧
      c.ai_assessment.diagnostic = .str "ollama diagnosis" ∧
      c.ai_assessment.consensus_note = "Based on 1 AI model(s): ollama" := by
  obtain ⟨c, hc, -, hbase2, hnote⟩ := consensus_base_and_note (.error "down")
    ⟨none, some (.str "ollama diagnosis"), some "OpenAI API error: 500", none⟩
    (cl "feels fine") (Or.inr rfl)
  refine ⟨c, hc, ?_, ?_⟩
  · exact hbase2 (.str "ollama diagnosis") rfl rfl
  · rw [hnote]
    rfl

/-- C5 counterexample: on the empty text, `split(/\s+/)` yields one empty
token, so `total_words` is `1`, not `0` as claimed. -/
theorem analyzeKeywords_empty_total_words_not_zero :
    (analyzeKeywords []).total_words ≠ 0 := by decide

/-- C5 amended: on the empty text, `total_words = 1` (the single empty
token produced by the JavaScript split), the match map is empty, the
percentage is `0` and `top_keywords` is empty. -/
theorem analyzeKeywords_empty_result :
    (analyzeKeywords []).total_words = 1 ∧
    (analyzeKeywords []).diagnostic_keywords = [] ∧
    (analyzeKeywords []).keyword_percentage = 0 ∧
    (analyzeKeywords []).top_keywords = [] := by
  refine ⟨by decide, by decide, ?_, by decide⟩
  have hk : sumCounts (wordPass (phrasesFound (lowerStr []))
      (splitWs (lowerStr [])) (phrasePass (lowerStr []))) = 0 := by decide
  have ht : (splitWs (lowerStr [])).length = 1 := by decide
  simp only [analyzeKeywords, hk, ht]
  norm_num [round1]

/-- The scenario text of C6. -/
def c6text : List Char := cl "chest pain and shortness of breath, severe pain"

/-- C6 counterexample: in the scenario text, the standalone word `pain`
(from `severe pain`) is never counted: the word pass skips it because
`pain` is a substring of the joined matched-phrase keys
(`chest pain shortness of breath`). -/
theorem c6_pain_not_counted :
    ((analyzeKeywords c6text).diagnostic_keywords.map (·.term)).contains
      (cl "pain") = false := by decide

/-- C6 amended: the scenario text yields exactly the phrase entries
`chest pain` (count 1) and `shortness of breath` (count 1); the
standalone `pain` is excluded by the substring-of-matched-phrases rule,
so no word entry exists at all. -/
theorem c6_exact_matches :
    (analyzeKeywords c6text).diagnostic_keywords =
      [⟨cl "chest pain", 1, "CARDIOVASCULAR"⟩,
       ⟨cl "shortness of breath", 1, "CARDIOVASCULAR"⟩] ∧
    (analyzeKeywords c6text).total_words = 8 := by decide

/-- C7 counterexample: a parseable response body that is not of the
expected Diagnostic Suggestion shape is returned as a success by both
provider clients — the source performs no shape validation after
`JSON.parse`. -/
theorem providers_accept_malformed_shape :
    specDiagnosticShape (.obj [("foo", .num 1)]) = false ∧
    callOpenAI (some "sk-test") ⟨true, "OK", some (.obj [("foo", .num 1)])⟩
      = .ok (.obj [("foo", .num 1)]) ∧
    callOllama ⟨true, "OK", some (.obj [("foo", .num 1)])⟩
      = .ok (.obj [("foo", .num 1)]) :=
  ⟨rfl, rfl, rfl⟩

/-- C7 amended: the provider clients fail exactly on a missing credential
(hosted client only), a non-success HTTP status, or a response body whose
content does not parse as JSON; any parseable body — of the expected
shape or not — is returned as success, unvalidated. -/
theorem providers_parse_only_validation (key : Option String)
    (resp : ProviderHttp) :
    ((callOpenAI key resp).isOk = true ↔
      key.isSome = true ∧ resp.ok = true ∧ resp.contentParse.isSome = true) ∧
    ((callOllama resp).isOk = true ↔
      resp.ok = true ∧ resp.contentParse.isSome = true) ∧
    (∀ v, callOpenAI key resp = .ok v → resp.contentParse = some v) ∧
    (∀ v, callOllama resp = .ok v → resp.contentParse = some v) := by
  obtain ⟨ok, st, cp⟩ := resp
  cases key <;> cases ok <;> cases cp <;>
    simp [callOpenAI, callOllama, Except.isOk, Except.toBool]

/-- Witness for C7 amended: a concrete well-parsed exchange succeeds. -/
theorem providers_parse_only_validation_witness :
    (callOpenAI (some "sk-test") ⟨true, "OK", some .null⟩).isOk = true :=
  (providers_parse_only_validation (some "sk-test")
    ⟨true, "OK", some .null⟩).1.mpr ⟨rfl, rfl, rfl⟩

/-- C9 counterexample: with both providers succeeding, the orchestration
trace shows the ollama call being initiated only after the openai call
has resolved (index 5 versus index 2): the providers are invoked
sequentially, so the openai latency does delay the ollama call,
contradicting the claimed concurrent fan-out. -/
theorem compareAllModels_sequential_counterexample :
    (compareAllModelsTrace (.ok .null) (.ok .null)).1 =
      [.progress "openai" "running", .invoke "openai",
       .resolve "openai" true, .progress "openai" "complete",
       .progress "ollama" "running", .invoke "ollama",
       .resolve "ollama" true, .progress "ollama" "complete"] ∧
    ¬ ((compareAllModelsTrace (.ok .null) (.ok .null)).1.findIdx
          (· == OrchEvent.invoke "ollama") <
       (compareAllModelsTrace (.ok .null) (.ok .null)).1.findIdx
          (· == OrchEvent.resolve "openai" true)) := by
  exact ⟨rfl, by decide⟩

/-- C9 amended: `compareAllModels` invokes the providers sequentially —
in every execution the openai call resolves strictly before the ollama
call is initiated — but failure isolation still holds: both providers are
always invoked, whatever the outcome of either. -/
theorem compareAllModels_sequential_isolated (oOut lOut : Except String JsonVal) :
    ∃ i j, i < j ∧
      (compareAllModelsTrace oOut lOut).1.get? i
        = some (.resolve "openai" oOut.isOk) ∧
      (compareAllModelsTrace oOut lOut).1.get? j = some (.invoke "ollama") ∧
      (compareAllModelsTrace oOut lOut).1.contains (.invoke "openai") = true ∧
      (compareAllModelsTrace oOut lOut).1.contains (.invoke "ollama") = true := by
  cases oOut <;> cases lOut <;>
    exact ⟨2, 5, by omega, rfl, rfl, rfl, rfl⟩

/-- C10: in the rule-based fallback, the score denominator
`max(positive + negative, 1)` is at least one, and a text containing no
whole-word occurrence of any fallback positive or negative word gets
`sentiment_score = 0` and `overall_sentiment = "neutral"`. -/
theorem fallback_denominator_and_neutral (text : List Char)
    (hneg : countList negativeWords (lowerStr text) = 0)
    (hpos : countList positiveWords (lowerStr text) = 0) :
    1 ≤ max (countList positiveWords (lowerStr text) +
             countList negativeWords (lowerStr text)) 1 ∧
    (analyzeSentimentFallback text).sentiment_score = 0 ∧
    (analyzeSentimentFallback text).overall_sentiment = "neutral" := by
  refine ⟨le_max_right _ _, ?_, ?_⟩
  · simp [analyzeSentimentFallback, hneg, hpos, round2]
    norm_num
  · simp [analyzeSentimentFallback, hneg, hpos]
    norm_num

/-- C8: for every input text, `keyword_percentage` lies in `[0, 100]` —
the keyword count never exceeds the token count — and it is `0` whenever
`total_words` is `0` (vacuously: the split always yields at least one
token, and the code guards the division). -/
theorem keyword_percentage_in_range (text : List Char) :
    0 ≤ (analyzeKeywords text).keyword_percentage ∧
    (analyzeKeywords text).keyword_percentage ≤ 100 ∧
    ((analyzeKeywords text).total_words = 0 →
      (analyzeKeywords text).keyword_percentage = 0) := by
  have hKL : sumCounts (wordPass (phrasesFound (lowerStr text))
      (splitWs (lowerStr text)) (phrasePass (lowerStr text))) ≤
      (splitWs (lowerStr text)).length :=
    keywordCount_le_totalWords (lowerStr text)
  have hpct : (analyzeKeywords text).keyword_percentage =
      (if 0 < (splitWs (lowerStr text)).length then
        round1 ((sumCounts (wordPass (phrasesFound (lowerStr text))
            (splitWs (lowerStr text)) (phrasePass (lowerStr text))) : ℚ) * 100 /
          ((splitWs (lowerStr text)).length : ℚ))
      else 0) := rfl
  have htw : (analyzeKeywords text).total_words =
      (splitWs (lowerStr text)).length := rfl
  set K := sumCounts (wordPass (phrasesFound (lowerStr text))
    (splitWs (lowerStr text)) (phrasePass (lowerStr text))) with hKdef
  set L := (splitWs (lowerStr text)).length with hLdef
  by_cases hL : 0 < L
  · have hLQ : (0 : ℚ) < (L : ℚ) := by exact_mod_cast hL
    have hKQ : (K : ℚ) ≤ (L : ℚ) := by exact_mod_cast hKL
    have hq0 : (0 : ℚ) ≤ (K : ℚ) * 100 / (L : ℚ) := by positivity
    have hq100 : (K : ℚ) * 100 / (L : ℚ) ≤ 100 := by
      rw [div_le_iff₀ hLQ]
      nlinarith
    refine ⟨?_, ?_, ?_⟩
    · rw [hpct, if_pos hL, round1]
      have hfl : (0 : ℤ) ≤ ⌊(K : ℚ) * 100 / (L : ℚ) * 10 + 1 / 2⌋ := by
        refine Int.le_floor.mpr ?_
        push_cast
        nlinarith
      have hfl2 : (0 : ℚ) ≤ ((⌊(K : ℚ) * 100 / (L : ℚ) * 10 + 1 / 2⌋ : ℤ) : ℚ) := by
        exact_mod_cast hfl
      linarith
    · rw [hpct, if_pos hL, round1]
      have hle : (K : ℚ) * 100 / (L : ℚ) * 10 + 1 / 2 ≤ 1000 + 1 / 2 := by
        nlinarith
      have hfl : ⌊(K : ℚ) * 100 / (L : ℚ) * 10 + 1 / 2⌋ ≤ 1000 := by
        have h1 := Int.floor_le_floor hle
        have h2 : ⌊(1000 : ℚ) + 1 / 2⌋ = 1000 := by norm_num
        omega
      have hfl2 : ((⌊(K : ℚ) * 100 / (L : ℚ) * 10 + 1 / 2⌋ : ℤ) : ℚ) ≤ 1000 := by
        exact_mod_cast hfl
      rw [div_le_iff₀ (by norm_num : (0 : ℚ) < 10)]
      linarith
    · intro h0
      rw [htw] at h0
      omega
  · rw [hpct, if_neg hL]
    exact ⟨le_refl 0, by norm_num, fun _ => rfl⟩

/-- Witness for C8 at a concrete text. -/
theorem keyword_percentage_in_range_witness :
    0 ≤ (analyzeKeywords (cl "chest pain")).keyword_percentage ∧
    (analyzeKeywords (cl "chest pain")).keyword_percentage ≤ 100 :=
  ⟨(keyword_percentage_in_range (cl "chest pain")).1,
   (keyword_percentage_in_range (cl "chest pain")).2.1⟩

/-- Witness for C10 at a concrete sentiment-free text. -/
theorem fallback_denominator_and_neutral_witness :
    (analyzeSentimentFallback (cl "lorem ipsum")).sentiment_score = 0 ∧
    (analyzeSentimentFallback (cl "lorem ipsum")).overall_sentiment = "neutral" :=
  ⟨(fallback_denominator_and_neutral (cl "lorem ipsum") (by decide) (by decide)).2.1,
   (fallback_denominator_and_neutral (cl "lorem ipsum") (by decide) (by decide)).2.2⟩

end DrAI

